import Mathlib

/-!
Verification of the EvoSim allocation engine (`src/evosim/allocators.py` and
`src/evosim/matchers.py`) via a shallow embedding in Lean 4.

Tables are embedded as lists: a fleet is a `List V` of vehicle rows (attributes
abstract), an infrastructure table is a `List (Post β)` of charging-post rows
whose pandas index labels are their positions; subtables that keep their labels
(as produced by `DataFrame.loc` filtering) are `List (Nat × Post β)` pairs of
label and row.  A matcher is a row-level predicate `V → Post β → Bool`, applied
elementwise exactly as the repository's matcher contract requires (matchers are
vectorized elementwise predicates).  Randomness (`numpy.random.Generator`
shuffles) is abstracted as an oracle `Rng` of shuffle functions, quantified over
in the theorems under the hypothesis `Rng.Valid` (every shuffle output is a
permutation of its input, which is exactly what `rng.shuffle` guarantees).  The
BallTree nearest-neighbour query of the greedy allocator (an external sklearn
collaborator) is abstracted as a ranking oracle returning, for the current
table of available posts and a vehicle, positional indices into that table in
increasing distance order.  Python's unbounded loops and recursion are embedded
with explicit fuel chosen to dominate the loop bounds of the source
(`maxiter` for the allocator loops, `fleet.length + 1` for the overbooking
recursion, whose levels strictly shrink the fleet).
-/

namespace EvoSim

/-- A charging-post row: abstract attributes (location, socket, charger, ...)
together with the `capacity` and `occupancy` columns used by the allocators. -/
structure Post (β : Type) where
  attrs : β
  capacity : Nat
  occupancy : Nat
deriving DecidableEq, Repr

instance {β : Type} [Inhabited β] : Inhabited (Post β) :=
  ⟨⟨default, 0, 0⟩⟩

/-- Spare places of one post: `capacity - occupancy`. -/
def Post.vacancy {β : Type} (p : Post β) : Nat :=
  p.capacity - p.occupancy

/-- Enumerate a list with positions starting at `n`; used to attach pandas
index labels (row positions) to fleet and infrastructure rows. -/
def enumFromN {α : Type} (n : Nat) : List α → List (Nat × α)
  | [] => []
  | a :: as => (n, a) :: enumFromN (n + 1) as

/-- A plain table's labelled rows: labels are positions `0, 1, ...`. -/
def indexPosts {β : Type} (posts : List (Post β)) : List (Nat × Post β) :=
  enumFromN 0 posts

/-- Sum of vacancies of a labelled infrastructure table
(`(charging_posts.capacity - charging_posts.occupancy).sum()`). -/
def totalVacancy {β : Type} (ips : List (Nat × Post β)) : List Nat :=
  ips.map fun e => e.2.vacancy

/-- The flat slot list `[i for i, n in vacancy_by_number.items() for _ in range(n)]`:
one entry per unit of spare capacity, carrying the post's label. -/
def expandVacancies {β : Type} (ips : List (Nat × Post β)) : List Nat :=
  ips.flatMap fun e => List.replicate e.2.vacancy e.1

/-- Row lookup by label (`charging_posts.loc[label]`). -/
def lookupPost {β : Type} [Inhabited β] (ips : List (Nat × Post β)) (l : Nat) : Post β :=
  ((ips.find? fun e => e.1 == l).getD (l, default)).2

/-- Oracle for `numpy.random.Generator`: the `n`-th shuffle performed by a run.
Any concrete run of the Python code corresponds to some `Rng` whose outputs are
permutations of their inputs (`Rng.Valid`). -/
structure Rng where
  shuffleNat : Nat → List Nat → List Nat
  shuffleBool : Nat → List Bool → List Bool

/-- The defining property of `numpy`'s shuffle: the output is a permutation of
the input. -/
def Rng.Valid (rng : Rng) : Prop :=
  (∀ n l, List.Perm (rng.shuffleNat n l) l) ∧
    (∀ n l, List.Perm (rng.shuffleBool n l) l)

/-- The rng that leaves every list unshuffled; a valid oracle used as witness. -/
def identRng : Rng :=
  ⟨fun _ l => l, fun _ l => l⟩

end EvoSim

namespace EvoSim

variable {V β : Type}

/-- One vectorized round of `random_allocator`'s loop: the matcher is run
elementwise on the unassigned vehicles (kept with their fleet positions)
against the first `len(unassigned)` slots; matched pairs are committed and
both vehicle and slot are dropped, the rest are kept in order, together with
the unused tail of the slot list. -/
def allocRound [Inhabited β] (matcher : V → Post β → Bool) (ips : List (Nat × Post β)) :
    List (Nat × V) → List Nat → List (Nat × Nat) × List (Nat × V) × List Nat
  | [], slots => ([], [], slots)
  | p :: ps, [] => ([], p :: ps, [])
  | p :: ps, s :: ss =>
    match allocRound matcher ips ps ss with
    | (cs, ps', ss') =>
      if matcher p.2 (lookupPost ips s) then ((p.1, s) :: cs, ps', ss')
      else (cs, p :: ps', s :: ss')

/-- The `for _ in range(maxiter)` loop of `random_allocator`: run a round,
commit its matches, stop once every vehicle is assigned, otherwise cycle the
slot list (`np.roll(vacancies, shift=-1)`) and repeat.  Returns the committed
(fleet position, post label) pairs. -/
def randomLoop [Inhabited β] (matcher : V → Post β → Bool) (ips : List (Nat × Post β)) :
    Nat → List (Nat × V) → List Nat → List (Nat × Nat)
  | 0, _, _ => []
  | fuel + 1, pairs, slots =>
    match allocRound matcher ips pairs slots with
    | (cs, pairs', slots') =>
      if pairs'.isEmpty then cs
      else cs ++ randomLoop matcher ips fuel pairs' (slots'.rotate 1)

/-- Materialize the committed pairs into the nullable `allocation` column
(`allocation.loc[...] = ...` accumulated over the rounds). -/
def allocFromCommits (n : Nat) (cs : List (Nat × Nat)) : List (Option Nat) :=
  cs.foldl (fun acc c => acc.set c.1 (some c.2)) (List.replicate n none)

/-- The non-delegating body of `random_allocator`: the shuffled slot list is
given, the default iteration budget is the number of slots plus one
(`maxiter = 0` stands for Python's `None` / non-positive). -/
def random_allocator_base [Inhabited β] (matcher : V → Post β → Bool)
    (ips : List (Nat × Post β)) (fleet : List V) (slots : List Nat) (maxiter : Nat) :
    List (Option Nat) :=
  let mi := if maxiter = 0 then slots.length + 1 else maxiter
  allocFromCommits fleet.length (randomLoop matcher ips mi (enumFromN 0 fleet) slots)

/-- `fleet.loc[subfleet_filter]`: the rows at the `true` positions of the mask. -/
def maskSelect {α : Type} (filt : List Bool) (l : List α) : List α :=
  ((l.zip filt).filter fun ab => ab.2).map fun ab => ab.1

/-- `fleet.loc[~subfleet_filter]`: the rows at the `false` positions. -/
def maskSelectNot {α : Type} (filt : List Bool) (l : List α) : List α :=
  ((l.zip filt).filter fun ab => !ab.2).map fun ab => ab.1

/-- Write the sub-results back through the boolean mask
(`result.loc[subfleet_filter] = ...` and `result.loc[~subfleet_filter] = ...`). -/
def mergeByMask : List Bool → List (Option Nat) → List (Option Nat) → List (Option Nat)
  | [], _, _ => []
  | true :: ms, a :: as, bs => a :: mergeByMask ms as bs
  | true :: ms, [], bs => none :: mergeByMask ms [] bs
  | false :: ms, as, b :: bs => b :: mergeByMask ms as bs
  | false :: ms, as, [] => none :: mergeByMask ms as []

/-- Post-wave occupancy bookkeeping of `random_overbooking`: each post's
occupancy is increased by the number of first-wave vehicles allocated to it,
and only the posts with spare capacity are kept (`spare_cps`), with their
original labels. -/
def spareOf {β : Type} (ips : List (Nat × Post β)) (subAlloc : List (Option Nat)) :
    List (Nat × Post β) :=
  (ips.map fun e =>
      (e.1, { e.2 with occupancy := e.2.occupancy + subAlloc.countP fun a => a == some e.1 })).filter
    fun e => e.2.occupancy < e.2.capacity

/-- `random_overbooking`, with the base method inlined as
`partial(random_allocator, matcher=matcher, maxiter=maxiter, seed=rng)` exactly
as `random_allocator` supplies it.  `fuel` bounds the recursion depth (each
recursion strictly shrinks the fleet, so `fleet.length + 1` suffices, see
`random_overbooking_fuel_stable`); `ctr` threads the rng call counter. -/
def random_overbooking [Inhabited β] (rng : Rng) (matcher : V → Post β → Bool) (mi : Nat) :
    Nat → Nat → List V → List (Nat × Post β) → List (Option Nat)
  | 0, _, fleet, _ => List.replicate fleet.length none
  | fuel + 1, ctr, fleet, ips =>
    let tv := (totalVacancy ips).sum
    if fleet.length ≤ tv then
      random_allocator_base matcher ips fleet (rng.shuffleNat ctr (expandVacancies ips)) mi
    else
      let filt := rng.shuffleBool ctr
        (List.replicate (fleet.length - tv) false ++ List.replicate tv true)
      let sub := maskSelect filt fleet
      let subAlloc :=
        if (totalVacancy ips).sum < sub.length then
          random_overbooking rng matcher mi fuel (ctr + 1) sub ips
        else
          random_allocator_base matcher ips sub
            (rng.shuffleNat (ctr + 1) (expandVacancies ips)) mi
      let spare := spareOf ips subAlloc
      let leftover := maskSelectNot filt fleet
      if spare.isEmpty then
        mergeByMask filt subAlloc (List.replicate leftover.length none)
      else
        mergeByMask filt subAlloc (random_overbooking rng matcher mi fuel (ctr + 2) leftover spare)

/-- `random_allocator`: delegates to `random_overbooking` whenever the fleet
exceeds the total vacancy, otherwise runs the base loop on the shuffled slot
list.  The returned table is the fleet with the new nullable `allocation`
column. -/
def random_allocator [Inhabited β] (rng : Rng) (matcher : V → Post β → Bool)
    (maxiter : Nat) (fleet : List V) (posts : List (Post β)) : List (V × Option Nat) :=
  let ips := indexPosts posts
  if (totalVacancy ips).sum < fleet.length then
    fleet.zip (random_overbooking rng matcher maxiter (fleet.length + 1) 0 fleet ips)
  else
    fleet.zip (random_allocator_base matcher ips fleet
      (rng.shuffleNat 0 (expandVacancies ips)) maxiter)

end EvoSim

namespace EvoSim

variable {V β : Type}

/-- A post row of the greedy allocator's working infrastructure: original
attributes and capacity, occupancy taken from the working occupancy column. -/
def workingPost [Inhabited β] (posts : List (Post β)) (occ : List Nat) (l : Nat) : Post β :=
  { posts.getD l default with occupancy := occ.getD l 0 }

/-- Labels (positions) of the posts that still have spare working capacity
(`infrastructure.loc[infrastructure.capacity > infrastructure.occupancy]`). -/
def availLabels [Inhabited β] (posts : List (Post β)) (occ : List Nat) : List Nat :=
  (List.range posts.length).filter fun l =>
    occ.getD l 0 < (posts.getD l default).capacity

/-- The `available_posts` subtable: labelled rows with working occupancy. -/
def availPosts [Inhabited β] (posts : List (Post β)) (occ : List Nat) : List (Nat × Post β) :=
  (availLabels posts occ).map fun l => (l, workingPost posts occ l)

/-- The per-vehicle pick of `greedy_allocator`: among the ranked candidate
positions (nearest first), the label of the first candidate the matcher
accepts (`np.where(nearest_matches, nearest_matches.cumsum(axis=1), 0) == 1`),
or none. -/
def firstMatchLabel [Inhabited β] (matcher : V → Post β → Bool)
    (avail : List (Nat × Post β)) (cand : List Nat) (v : V) : Option Nat :=
  (cand.find? fun j => matcher v (avail.getD j (0, default)).2).map
    fun j => (avail.getD j (0, default)).1

/-- The `nearest_matching` series spread over the whole fleet: unassigned
vehicles get their first matching candidate among their `k` nearest available
posts (ranked by the BallTree oracle `query`), assigned vehicles get none. -/
def proposals [Inhabited β] (matcher : V → Post β → Bool)
    (query : List (Nat × Post β) → V → List Nat) (avail : List (Nat × Post β)) (k : Nat)
    (fleet : List V) (alloc : List (Option Nat)) : List (Option Nat) :=
  (enumFromN 0 fleet).map fun iv =>
    if (alloc.getD iv.1 none).isSome then none
    else firstMatchLabel matcher avail ((query avail iv.2).take k) iv.2

/-- `_void_overbooking`'s `pick_first`: walking the proposals in fleet order,
the first `vac l` proposals of each post `l` are kept (`arange < nvacs`), the
excess is voided back to null; `counts` records how many proposals of each
post were already seen. -/
def voidOverbookingAux (vac : Nat → Nat) (counts : Nat → Nat) :
    List (Option Nat) → List (Option Nat)
  | [] => []
  | none :: rest => none :: voidOverbookingAux vac counts rest
  | some l :: rest =>
    (if counts l < vac l then some l else none) ::
      voidOverbookingAux vac (fun x => if x = l then counts x + 1 else counts x) rest

/-- `_void_overbooking`: void the proposals that overbook a post beyond its
current vacancy, keeping the earliest rows of the fleet table. -/
def void_overbooking (vac : Nat → Nat) (proposed : List (Option Nat)) : List (Option Nat) :=
  voidOverbookingAux vac (fun _ => 0) proposed

/-- The remaining vacancy of post `l` in the working infrastructure
(`charging_posts.capacity.at[label] - charging_posts.occupancy.at[label]`). -/
def workingVacancy [Inhabited β] (posts : List (Post β)) (occ : List Nat) (l : Nat) : Nat :=
  (posts.getD l default).capacity - occ.getD l 0

/-- One round of `greedy_allocator`'s loop: build the available-post subtable,
query each unassigned vehicle's `k` nearest available posts, keep each
vehicle's first matching candidate and void the picks that would overbook a
post.  Returns the `newly_assigned` column over the whole fleet. -/
def greedyRound [Inhabited β] (matcher : V → Post β → Bool)
    (query : List (Nat × Post β) → V → List Nat) (posts : List (Post β)) (fleet : List V)
    (nn : Nat) (occ : List Nat) (alloc : List (Option Nat)) : List (Option Nat) :=
  let avail := availPosts posts occ
  let k := min nn avail.length
  void_overbooking (workingVacancy posts occ) (proposals matcher query avail k fleet alloc)

/-- Sum of remaining working vacancies
(`(infrastructure.capacity - infrastructure.occupancy).sum()`). -/
def workingVacancySum [Inhabited β] (posts : List (Post β)) (occ : List Nat) : Nat :=
  ((List.range posts.length).map fun l => workingVacancy posts occ l).sum

/-- The `while iteration < maxiter` loop of `greedy_allocator`.  One unit of
fuel is spent per pass; since `iteration` grows by at least one per pass,
`fuel = maxiter` makes the fuel guard unreachable before the `iteration`
guard, so the embedding with that fuel is exact. -/
def greedyLoop [Inhabited β] (matcher : V → Post β → Bool)
    (query : List (Nat × Post β) → V → List Nat) (posts : List (Post β)) (fleet : List V)
    (nn maxiter : Nat) : Nat → Nat → List Nat → List (Option Nat) → List (Option Nat)
  | 0, _, _, alloc => alloc
  | fuel + 1, iteration, occ, alloc =>
    if iteration < maxiter then
      if workingVacancySum posts occ = 0 then alloc
      else if alloc.countP (fun a => a.isNone) = 0 then alloc
      else
        let newly := greedyRound matcher query posts fleet nn occ alloc
        let alloc2 := List.zipWith (fun a n => if a.isSome then a else n) alloc newly
        if newly.countP (fun a => a.isSome) = 0 then alloc2
        else
          let occ2 := (enumFromN 0 occ).map fun lo =>
            lo.2 + newly.countP fun a => a == some lo.1
          greedyLoop matcher query posts fleet nn maxiter fuel
            (iteration + max (newly.countP fun a => a.isSome) 1) occ2 alloc2
    else alloc

/-- `greedy_allocator`: nearest-compatible-post assignment with table-order
tie-break; `nearest_neighbors = 0` and `maxiter = 0` stand for Python's
`None` / non-positive and trigger the documented defaults. -/
def greedy_allocator [Inhabited β] (query : List (Nat × Post β) → V → List Nat)
    (matcher : V → Post β → Bool) (nearest_neighbors maxiter : Nat)
    (fleet : List V) (posts : List (Post β)) : List (V × Option Nat) :=
  let occ0 := posts.map fun p => p.occupancy
  let nn := if nearest_neighbors = 0 then posts.length else nearest_neighbors
  let mi := if maxiter = 0 then workingVacancySum posts occ0 + 1 else maxiter
  fleet.zip
    (greedyLoop matcher query posts fleet nn mi mi 0 occ0 (List.replicate fleet.length none))

end EvoSim

namespace EvoSim

variable {ρ : Type}

/-- One class yielded by `classify`: the boolean membership mask over the rows
of the input table, tagged with the template row's identifier. -/
structure ClassMask where
  mask : List Bool
  template : Nat
deriving DecidableEq, Repr

instance : Inhabited ClassMask :=
  ⟨⟨[], 0⟩⟩

/-- One pass of `classify`'s loop: take the first not-yet-classified row as
template (`np.argmax(visitless)`), match every row against it, yield the mask
(restricted to unvisited rows unless `revisit`), and mark the matched rows as
visited. -/
def classifyStep [Inhabited ρ] (m : ρ → ρ → Bool) (data : List ρ) (revisit : Bool)
    (visitless : List Bool) : ClassMask × List Bool :=
  let index := visitless.findIdx fun b => b
  let template := data.getD index default
  let is_match := data.map fun r => m r template
  let yieldee := if revisit then is_match else List.zipWith (fun a b => a && b) is_match visitless
  (⟨yieldee, index⟩, List.zipWith (fun a b => !a && b) is_match visitless)

/-- The `while visitless.any()` loop of `classify`, fuelled: returns the
classes yielded and the final visitless mask (all-false iff the loop exited on
its own, i.e. the generator terminated). -/
def classifyAux [Inhabited ρ] (m : ρ → ρ → Bool) (data : List ρ) (revisit : Bool) :
    Nat → List Bool → List ClassMask × List Bool
  | 0, vis => ([], vis)
  | fuel + 1, vis =>
    if vis.any fun b => b then
      match classifyStep m data revisit vis with
      | (c, vis') =>
        match classifyAux m data revisit fuel vis' with
        | (cs, visF) => (c :: cs, visF)
    else ([], vis)

/-- `classify` run from the initial all-unvisited mask with the given fuel. -/
def classify [Inhabited ρ] (m : ρ → ρ → Bool) (data : List ρ) (revisit : Bool)
    (fuel : Nat) : List ClassMask × List Bool :=
  classifyAux m data revisit fuel (List.replicate data.length true)

/-- `classify`'s generator terminates: some fuel exhausts the visitless mask,
after which no further class is yielded. -/
def ClassifyTerminates [Inhabited ρ] (m : ρ → ρ → Bool) (data : List ρ) : Prop :=
  ∃ fuel, (classify m data false fuel).2.any (fun b => b) = false

/-- The partition law for non-overlapping classification: the run terminates,
its classes are pairwise disjoint, every row lies in exactly one class, and
every member row matches its class's template row. -/
def ClassifyPartitionLaw [Inhabited ρ] (m : ρ → ρ → Bool) (data : List ρ) : Prop :=
  ∃ fuel,
    (classify m data false fuel).2.any (fun b => b) = false ∧
    (classify m data false fuel).1.Pairwise
      (fun c d => ∀ i, ¬(c.mask.getD i false = true ∧ d.mask.getD i false = true)) ∧
    (∀ i, i < data.length →
      (classify m data false fuel).1.countP (fun c => c.mask.getD i false) = 1) ∧
    (∀ c ∈ (classify m data false fuel).1, ∀ i, i < data.length →
      c.mask.getD i false = true →
      m (data.getD i default) (data.getD c.template default) = true)

end EvoSim

namespace EvoSim

variable {V β : Type}

/-- The first-wave/leftover partition mask drawn by one level of
`random_overbooking` (`subfleet_filter` after `rng.shuffle`). -/
def obFilter (rng : Rng) (ctr : Nat) (fleetLen tv : Nat) : List Bool :=
  rng.shuffleBool ctr (List.replicate (fleetLen - tv) false ++ List.replicate tv true)

/-- The first-wave allocation of one level of `random_overbooking`: the base
method applied to the selected subfleet against the full level infrastructure
(the method re-checks the overbooking guard exactly as `random_allocator`
does). -/
def obSubAlloc [Inhabited β] (rng : Rng) (matcher : V → Post β → Bool) (mi fuel ctr : Nat)
    (fleet : List V) (ips : List (Nat × Post β)) : List (Option Nat) :=
  if (totalVacancy ips).sum <
      (maskSelect (obFilter rng ctr fleet.length (totalVacancy ips).sum) fleet).length then
    random_overbooking rng matcher mi fuel (ctr + 1)
      (maskSelect (obFilter rng ctr fleet.length (totalVacancy ips).sum) fleet) ips
  else
    random_allocator_base matcher ips
      (maskSelect (obFilter rng ctr fleet.length (totalVacancy ips).sum) fleet)
      (rng.shuffleNat (ctr + 1) (expandVacancies ips)) mi

/-- The BallTree oracle contract: the query returns positional indices into
the table it was built over. -/
def QueryValid (query : List (Nat × Post β) → V → List Nat) : Prop :=
  ∀ (ps : List (Nat × Post β)) (v : V), ∀ j ∈ query ps v, j < ps.length

/-- The state invariant of `greedy_allocator`'s loop: the working occupancy
column counts the original occupants plus the committed allocations, never
exceeding capacity, and committed labels are valid posts. -/
def GInv [Inhabited β] (posts : List (Post β)) (fleet : List V) (occ : List Nat)
    (alloc : List (Option Nat)) : Prop :=
  occ.length = posts.length ∧ alloc.length = fleet.length ∧
    (∀ l, l < posts.length →
      occ.getD l 0 = (posts.getD l default).occupancy + alloc.countP fun a => a == some l) ∧
    (∀ l, l < posts.length → occ.getD l 0 ≤ (posts.getD l default).capacity) ∧
    (∀ i l, alloc.getD i none = some l → l < posts.length)

/-- A matcher accepting every pair; stands for any vehicle-independent
always-compatible configuration. -/
def trueMatcher : Nat → Post Unit → Bool :=
  fun _ _ => true

/-- The `charging_post_availability` built-in composed with a vehicle
predicate: it reads the working occupancy column, so it is not
occupancy-insensitive.  Vehicle `1` requires an empty post, every other
vehicle requires exactly one occupant. -/
def occMatcher : Nat → Post Unit → Bool :=
  fun v p => if v == 1 then p.occupancy == 0 else p.occupancy == 1

/-- A distance oracle ranking the available posts in table order (all posts at
the same location). -/
def rangeQuery : List (Nat × Post Unit) → Nat → List Nat :=
  fun avail _ => List.range avail.length

/-- A two-space empty post. -/
def post20 : Post Unit :=
  { attrs := (), capacity := 2, occupancy := 0 }

/-- A two-space post with one occupant. -/
def post21 : Post Unit :=
  { attrs := (), capacity := 2, occupancy := 1 }

/-- A one-space empty post. -/
def post10 : Post Unit :=
  { attrs := (), capacity := 1, occupancy := 0 }

/-- A matcher rejecting every pair of rows, not reflexive. -/
def falseRowMatcher : Nat → Nat → Bool :=
  fun _ _ => false

/-- Row equality as a matcher; reflexive. -/
def eqRowMatcher : Nat → Nat → Bool :=
  fun a b => a == b

end EvoSim

namespace EvoSim

variable {V β : Type}

theorem length_enumFromN {α : Type} (n : Nat) (l : List α) :
    (enumFromN n l).length = l.length := by
  induction l generalizing n with
  | nil => rfl
  | cons a as ih => simp [enumFromN, ih]

theorem mem_enumFromN {α : Type} [Inhabited α] :
    ∀ {n i : Nat} {v : α} {l : List α}, (i, v) ∈ enumFromN n l →
      n ≤ i ∧ i - n < l.length ∧ l.getD (i - n) default = v := by
  intro n i v l
  induction l generalizing n with
  | nil => intro h; cases h
  | cons a as ih =>
    intro h
    simp only [enumFromN] at h
    rw [List.mem_cons] at h
    rcases h with h | h
    · injection h with hl hr
      subst hl
      subst hr
      refine ⟨Nat.le_refl _, ?_, ?_⟩ <;> simp [Nat.sub_self]
    · obtain ⟨h1, h2, h3⟩ := ih (n := n + 1) h
      have hn : n ≤ i := Nat.le_of_succ_le h1
      have hi : i - n = (i - (n + 1)) + 1 := by omega
      refine ⟨hn, ?_, ?_⟩
      · simpa [hi] using Nat.succ_lt_succ h2
      · simpa [hi] using h3

/-- The fleet-position/row invariant carried by `random_allocator`'s loop
state: every yet-unassigned pair records a real row of the fleet. -/
def PairsOK [Inhabited V] (fleet : List V) (pairs : List (Nat × V)) : Prop :=
  ∀ q ∈ pairs, q.1 < fleet.length ∧ fleet.getD q.1 default = q.2

theorem pairsOK_enum [Inhabited V] (fleet : List V) :
    PairsOK fleet (enumFromN 0 fleet) := by
  intro q hq
  obtain ⟨-, h2, h3⟩ := mem_enumFromN hq
  exact ⟨by simpa using h2, by simpa using h3⟩

theorem pairsOK_sublist [Inhabited V] {fleet : List V} {pairs pairs' : List (Nat × V)}
    (hs : pairs'.Sublist pairs) (h : PairsOK fleet pairs) : PairsOK fleet pairs' :=
  fun q hq => h q (hs.subset hq)

theorem allocRound_nil_left [Inhabited β] (matcher : V → Post β → Bool)
    (ips : List (Nat × Post β)) (slots : List Nat) :
    allocRound matcher ips ([] : List (Nat × V)) slots = ([], [], slots) := rfl

theorem allocRound_nil_right [Inhabited β] (matcher : V → Post β → Bool)
    (ips : List (Nat × Post β)) (p : Nat × V) (ps : List (Nat × V)) :
    allocRound matcher ips (p :: ps) [] = ([], p :: ps, []) := rfl

theorem allocRound_cons_pos [Inhabited β] {matcher : V → Post β → Bool}
    {ips : List (Nat × Post β)} {p : Nat × V} {ps : List (Nat × V)} {s : Nat}
    {ss : List Nat} (h : matcher p.2 (lookupPost ips s) = true) :
    allocRound matcher ips (p :: ps) (s :: ss) =
      ((p.1, s) :: (allocRound matcher ips ps ss).1,
        (allocRound matcher ips ps ss).2.1, (allocRound matcher ips ps ss).2.2) := by
  simp [allocRound, h]

theorem allocRound_cons_neg [Inhabited β] {matcher : V → Post β → Bool}
    {ips : List (Nat × Post β)} {p : Nat × V} {ps : List (Nat × V)} {s : Nat}
    {ss : List Nat} (h : ¬matcher p.2 (lookupPost ips s) = true) :
    allocRound matcher ips (p :: ps) (s :: ss) =
      ((allocRound matcher ips ps ss).1,
        p :: (allocRound matcher ips ps ss).2.1,
        s :: (allocRound matcher ips ps ss).2.2) := by
  simp [allocRound, h]

theorem allocRound_spec [Inhabited β] (matcher : V → Post β → Bool)
    (ips : List (Nat × Post β)) :
    ∀ (pairs : List (Nat × V)) (slots : List Nat),
      (allocRound matcher ips pairs slots).2.1.Sublist pairs ∧
      (allocRound matcher ips pairs slots).2.2.Sublist slots ∧
      (∀ c ∈ (allocRound matcher ips pairs slots).1,
        (∃ v, (c.1, v) ∈ pairs ∧ matcher v (lookupPost ips c.2) = true) ∧ c.2 ∈ slots) ∧
      (∀ l : Nat, ((allocRound matcher ips pairs slots).1.countP fun c => c.2 == l) +
        (allocRound matcher ips pairs slots).2.2.count l = slots.count l) := by
  intro pairs
  induction pairs with
  | nil =>
    intro slots
    refine ⟨List.nil_sublist _, List.Sublist.refl _, ?_, ?_⟩ <;>
      simp [allocRound_nil_left]
  | cons p ps ih =>
    intro slots
    cases slots with
    | nil =>
      refine ⟨List.Sublist.refl _, List.Sublist.refl _, ?_, ?_⟩ <;>
        simp [allocRound_nil_right]
    | cons s ss =>
      obtain ⟨ihp, ihs, ihm, ihc⟩ := ih ss
      by_cases hm : matcher p.2 (lookupPost ips s) = true
      · refine ⟨?_, ?_, ?_, ?_⟩
        · simp only [allocRound_cons_pos hm]
          exact ihp.cons _
        · simp only [allocRound_cons_pos hm]
          exact ihs.cons _
        · intro c hc
          simp only [allocRound_cons_pos hm, List.mem_cons] at hc
          rcases hc with hc | hc
          · subst hc
            exact ⟨⟨p.2, by simp, hm⟩, by simp⟩
          · obtain ⟨⟨v, hv, hmv⟩, hsl⟩ := ihm c hc
            exact ⟨⟨v, by simp [hv], hmv⟩, by simp [hsl]⟩
        · intro l
          have h1 := ihc l
          simp only [allocRound_cons_pos hm, List.countP_cons, List.count_cons]
          by_cases hsl : (s == l) = true <;> simp [hsl] <;> omega
      · refine ⟨?_, ?_, ?_, ?_⟩
        · simp only [allocRound_cons_neg hm]
          exact ihp.cons₂ _
        · simp only [allocRound_cons_neg hm]
          exact ihs.cons₂ _
        · intro c hc
          simp only [allocRound_cons_neg hm] at hc
          obtain ⟨⟨v, hv, hmv⟩, hsl⟩ := ihm c hc
          exact ⟨⟨v, by simp [hv], hmv⟩, by simp [hsl]⟩
        · intro l
          have h1 := ihc l
          simp only [allocRound_cons_neg hm, List.count_cons]
          omega

end EvoSim

namespace EvoSim

variable {V β : Type}

theorem randomLoop_succ [Inhabited β] (matcher : V → Post β → Bool)
    (ips : List (Nat × Post β)) (fuel : Nat) (pairs : List (Nat × V)) (slots : List Nat) :
    randomLoop matcher ips (fuel + 1) pairs slots =
      if (allocRound matcher ips pairs slots).2.1.isEmpty then
        (allocRound matcher ips pairs slots).1
      else
        (allocRound matcher ips pairs slots).1 ++
          randomLoop matcher ips fuel (allocRound matcher ips pairs slots).2.1
            ((allocRound matcher ips pairs slots).2.2.rotate 1) := rfl

theorem randomLoop_count [Inhabited β] (matcher : V → Post β → Bool)
    (ips : List (Nat × Post β)) :
    ∀ (fuel : Nat) (pairs : List (Nat × V)) (slots : List Nat) (l : Nat),
      ((randomLoop matcher ips fuel pairs slots).countP fun c => c.2 == l) ≤
        slots.count l := by
  intro fuel
  induction fuel with
  | zero => intro pairs slots l; simp [randomLoop]
  | succ fuel ih =>
    intro pairs slots l
    obtain ⟨-, -, -, hc⟩ := allocRound_spec matcher ips pairs slots
    have hc' := hc l
    have hrot : ((allocRound matcher ips pairs slots).2.2.rotate 1).count l =
        (allocRound matcher ips pairs slots).2.2.count l :=
      (List.rotate_perm _ 1).count_eq l
    have hrec := ih (allocRound matcher ips pairs slots).2.1
      ((allocRound matcher ips pairs slots).2.2.rotate 1) l
    rw [randomLoop_succ]
    by_cases hp : (allocRound matcher ips pairs slots).2.1.isEmpty
    · rw [if_pos hp]
      omega
    · rw [if_neg hp, List.countP_append]
      omega

theorem randomLoop_mem [Inhabited V] [Inhabited β] (matcher : V → Post β → Bool)
    (ips : List (Nat × Post β)) (fleet : List V) :
    ∀ (fuel : Nat) (pairs : List (Nat × V)) (slots : List Nat),
      PairsOK fleet pairs →
      ∀ c ∈ randomLoop matcher ips fuel pairs slots,
        c.1 < fleet.length ∧
        matcher (fleet.getD c.1 default) (lookupPost ips c.2) = true ∧ c.2 ∈ slots := by
  intro fuel
  induction fuel with
  | zero => intro pairs slots _ c hc; simp [randomLoop] at hc
  | succ fuel ih =>
    intro pairs slots hok c hc
    obtain ⟨hsp, hss, hm, -⟩ := allocRound_spec matcher ips pairs slots
    rw [randomLoop_succ] at hc
    have hcs : c ∈ (allocRound matcher ips pairs slots).1 →
        c.1 < fleet.length ∧
        matcher (fleet.getD c.1 default) (lookupPost ips c.2) = true ∧ c.2 ∈ slots := by
      intro hcc
      obtain ⟨⟨v, hv, hmv⟩, hsl⟩ := hm c hcc
      obtain ⟨h1, h2⟩ := hok _ hv
      exact ⟨h1, by rwa [h2], hsl⟩
    by_cases hp : (allocRound matcher ips pairs slots).2.1.isEmpty
    · rw [if_pos hp] at hc
      exact hcs hc
    · rw [if_neg hp, List.mem_append] at hc
      rcases hc with hc | hc
      · exact hcs hc
      · obtain ⟨h1, h2, h3⟩ := ih (allocRound matcher ips pairs slots).2.1
          ((allocRound matcher ips pairs slots).2.2.rotate 1)
          (pairsOK_sublist hsp hok) c hc
        refine ⟨h1, h2, ?_⟩
        have h4 : c.2 ∈ (allocRound matcher ips pairs slots).2.2 :=
          (List.rotate_perm _ 1).mem_iff.mp h3
        exact hss.subset h4

theorem length_foldl_set :
    ∀ (cs : List (Nat × Nat)) (acc : List (Option Nat)),
      (cs.foldl (fun acc c => acc.set c.1 (some c.2)) acc).length = acc.length := by
  intro cs
  induction cs with
  | nil => intro acc; rfl
  | cons c cs ih =>
    intro acc
    simp only [List.foldl_cons]
    rw [ih]
    simp

theorem length_allocFromCommits (n : Nat) (cs : List (Nat × Nat)) :
    (allocFromCommits n cs).length = n := by
  unfold allocFromCommits
  rw [length_foldl_set]
  simp

theorem countP_foldl_set (p : Option Nat → Bool) :
    ∀ (cs : List (Nat × Nat)) (acc : List (Option Nat)),
      ((cs.foldl (fun acc c => acc.set c.1 (some c.2)) acc).countP p) ≤
        acc.countP p + cs.countP fun c => p (some c.2) := by
  intro cs
  induction cs with
  | nil => intro acc; simp
  | cons c cs ih =>
    intro acc
    have hset : (acc.set c.1 (some c.2)).countP p ≤
        acc.countP p + (if p (some c.2) then 1 else 0) := by
      clear ih
      induction acc generalizing c with
      | nil => simp [List.set]
      | cons a as iha =>
        rcases c with ⟨i, x⟩
        cases i with
        | zero =>
          simp only [List.set, List.countP_cons]
          by_cases hpa : p a = true <;> by_cases hpx : p (some x) = true <;>
            simp [hpa, hpx]
        | succ i =>
          simp only [List.set, List.countP_cons]
          have := iha (c := (i, x))
          by_cases hpa : p a = true <;> simp [hpa] at this ⊢ <;> omega
    have hih := ih (acc.set c.1 (some c.2))
    have hcons : ((c :: cs).foldl (fun acc c => acc.set c.1 (some c.2)) acc) =
        (cs.foldl (fun acc c => acc.set c.1 (some c.2)) (acc.set c.1 (some c.2))) := by
      simp
    rw [hcons, List.countP_cons]
    by_cases hpx : p (some c.2) = true <;> simp [hpx] at hset ⊢ <;> omega

theorem countP_allocFromCommits (n : Nat) (cs : List (Nat × Nat)) (l : Nat) :
    ((allocFromCommits n cs).countP fun a => a == some l) ≤ cs.countP fun c => c.2 == l := by
  have h := countP_foldl_set (fun a => a == some l) cs (List.replicate n none)
  have hrep : ((List.replicate n (none : Option Nat)).countP fun a => a == some l) = 0 := by
    simp
  have heq : (cs.countP fun c => (some c.2 : Option Nat) == some l) =
      cs.countP fun c => c.2 == l := by
    apply List.countP_congr
    intro c _
    simp
  unfold allocFromCommits
  omega

theorem getD_foldl_set :
    ∀ (cs : List (Nat × Nat)) (acc : List (Option Nat)) (i : Nat) (l : Nat),
      (cs.foldl (fun acc c => acc.set c.1 (some c.2)) acc).getD i none = some l →
      acc.getD i none = some l ∨ (i, l) ∈ cs := by
  intro cs
  induction cs with
  | nil => intro acc i l h; exact Or.inl h
  | cons c cs ih =>
    intro acc i l h
    simp only [List.foldl_cons] at h
    rcases ih _ i l h with h' | h'
    · by_cases hi : c.1 = i
      · subst hi
        by_cases hlen : c.1 < acc.length
        · refine Or.inr (List.mem_cons.mpr (Or.inl ?_))
          have hv : (acc.set c.1 (some c.2)).getD c.1 none = some c.2 := by
            rw [List.getD_eq_getElem?_getD, List.getElem?_set_eq_of_lt _ hlen]
            rfl
          rw [hv] at h'
          injection h' with h''
          rw [← h'']
        · have hv : (acc.set c.1 (some c.2)).getD c.1 none = acc.getD c.1 none := by
            rw [List.set_eq_of_length_le (by omega)]
          rw [hv] at h'
          exact Or.inl h'
      · left
        have hv : (acc.set c.1 (some c.2)).getD i none = acc.getD i none := by
          rw [List.getD_eq_getElem?_getD, List.getElem?_set_ne hi, ← List.getD_eq_getElem?_getD]
        rwa [hv] at h'
    · exact Or.inr (List.mem_cons_of_mem _ h')

theorem getD_allocFromCommits {n : Nat} {cs : List (Nat × Nat)} {i l : Nat}
    (h : (allocFromCommits n cs).getD i none = some l) : (i, l) ∈ cs := by
  unfold allocFromCommits at h
  rcases getD_foldl_set cs _ i l h with h' | h'
  · exfalso
    rcases Nat.lt_or_ge i n with hlt | hge
    · rw [List.getD_eq_getElem?_getD, List.getElem?_replicate, if_pos hlt] at h'
      cases h'
    · rw [List.getD_eq_default _ _ (by simpa using hge)] at h'
      cases h'
  · exact h'

theorem mem_foldl_set :
    ∀ (cs : List (Nat × Nat)) (acc : List (Option Nat)) (x : Option Nat),
      x ∈ cs.foldl (fun acc c => acc.set c.1 (some c.2)) acc →
      x ∈ acc ∨ ∃ c ∈ cs, x = some c.2 := by
  intro cs
  induction cs with
  | nil => intro acc x h; exact Or.inl h
  | cons c cs ih =>
    intro acc x h
    simp only [List.foldl_cons] at h
    rcases ih _ x h with h' | h'
    · rcases List.mem_or_eq_of_mem_set h' with h'' | h''
      · exact Or.inl h''
      · exact Or.inr ⟨c, by simp, h''⟩
    · obtain ⟨c', hc', hx⟩ := h'
      exact Or.inr ⟨c', by simp [hc'], hx⟩

theorem mem_allocFromCommits {n : Nat} {cs : List (Nat × Nat)} {x : Option Nat}
    (h : x ∈ allocFromCommits n cs) : x = none ∨ ∃ c ∈ cs, x = some c.2 := by
  unfold allocFromCommits at h
  rcases mem_foldl_set cs _ x h with h' | h'
  · exact Or.inl (List.eq_of_mem_replicate h')
  · exact Or.inr h'

end EvoSim

namespace EvoSim

variable {V β : Type}

theorem mem_expandVacancies {β : Type} {ips : List (Nat × Post β)} {x : Nat}
    (h : x ∈ expandVacancies ips) : x ∈ ips.map Prod.fst := by
  unfold expandVacancies at h
  rw [List.mem_flatMap] at h
  obtain ⟨e, he, hx⟩ := h
  rw [List.eq_of_mem_replicate hx]
  exact List.mem_map.mpr ⟨e, he, rfl⟩

theorem count_expandVacancies_zero {β : Type} {ips : List (Nat × Post β)} {l : Nat}
    (h : l ∉ ips.map Prod.fst) : (expandVacancies ips).count l = 0 := by
  rw [List.count_eq_zero]
  intro hmem
  exact h (mem_expandVacancies hmem)

theorem count_expandVacancies {β : Type} :
    ∀ {ips : List (Nat × Post β)} {l : Nat} {p : Post β},
      (ips.map Prod.fst).Nodup → (l, p) ∈ ips →
      (expandVacancies ips).count l = p.vacancy := by
  intro ips
  induction ips with
  | nil => intro l p _ h; cases h
  | cons e es ih =>
    intro l p hnd hmem
    have hnd' : (es.map Prod.fst).Nodup := (List.nodup_cons.mp (by simpa using hnd)).2
    have hne : e.1 ∉ es.map Prod.fst := (List.nodup_cons.mp (by simpa using hnd)).1
    unfold expandVacancies
    rw [List.flatMap_cons, List.count_append]
    rcases List.mem_cons.mp hmem with hh | hh
    · have he1 : e.1 = l := by rw [← hh]
      have he2 : e.2 = p := by rw [← hh]
      have hz : (expandVacancies es).count l = 0 := by
        apply count_expandVacancies_zero
        rw [← he1]
        exact hne
      unfold expandVacancies at hz
      rw [hz, List.count_replicate]
      simp [he1, he2]
    · have hl : l ∈ es.map Prod.fst := List.mem_map.mpr ⟨(l, p), hh, rfl⟩
      have hne2 : (e.1 == l) = false := by
        rw [beq_eq_false_iff_ne]
        intro hcon
        rw [hcon] at hne
        exact hne hl
      rw [List.count_replicate, hne2]
      have := ih hnd' hh
      unfold expandVacancies at this
      simpa using this

theorem maskSelect_cons {α : Type} (b : Bool) (bs : List Bool) (a : α) (as : List α) :
    maskSelect (b :: bs) (a :: as) =
      if b then a :: maskSelect bs as else maskSelect bs as := by
  cases b <;> simp [maskSelect]

theorem maskSelectNot_cons {α : Type} (b : Bool) (bs : List Bool) (a : α) (as : List α) :
    maskSelectNot (b :: bs) (a :: as) =
      if b then maskSelectNot bs as else a :: maskSelectNot bs as := by
  cases b <;> simp [maskSelectNot]

theorem length_maskSelect {α : Type} :
    ∀ (filt : List Bool) (l : List α), filt.length = l.length →
      (maskSelect filt l).length = filt.count true := by
  intro filt
  induction filt with
  | nil => intro l h; simp [maskSelect]
  | cons b bs ih =>
    intro l h
    cases l with
    | nil => simp at h
    | cons a as =>
      have h' : bs.length = as.length := by simpa using h
      have hih := ih as h'
      rw [maskSelect_cons]
      cases b
      · simp only [if_neg Bool.false_ne_true, List.count_cons]
        simp [hih]
      · simp only [if_pos rfl, List.length_cons, List.count_cons]
        simp [hih]

theorem length_maskSelectNot {α : Type} :
    ∀ (filt : List Bool) (l : List α), filt.length = l.length →
      (maskSelectNot filt l).length = filt.count false := by
  intro filt
  induction filt with
  | nil => intro l h; simp [maskSelectNot]
  | cons b bs ih =>
    intro l h
    cases l with
    | nil => simp at h
    | cons a as =>
      have h' : bs.length = as.length := by simpa using h
      have hih := ih as h'
      rw [maskSelectNot_cons]
      cases b
      · simp only [if_neg Bool.false_ne_true, List.length_cons, List.count_cons]
        simp [hih]
      · simp only [if_pos rfl, List.count_cons]
        simp [hih]

theorem count_true_add_count_false (filt : List Bool) :
    filt.count true + filt.count false = filt.length := by
  induction filt with
  | nil => rfl
  | cons b bs ih => cases b <;> simp [List.count_cons] <;> omega

theorem length_mergeByMask :
    ∀ (ms : List Bool) (a b : List (Option Nat)),
      (mergeByMask ms a b).length = ms.length := by
  intro ms
  induction ms with
  | nil => intro a b; rfl
  | cons m msr ih =>
    intro a b
    cases m with
    | true => cases a <;> simp [mergeByMask, ih]
    | false => cases b <;> simp [mergeByMask, ih]

theorem countP_mergeByMask (p : Option Nat → Bool) (hp : p none = false) :
    ∀ (ms : List Bool) (a b : List (Option Nat)),
      (mergeByMask ms a b).countP p ≤ a.countP p + b.countP p := by
  intro ms
  induction ms with
  | nil => intro a b; simp [mergeByMask]
  | cons m msr ih =>
    intro a b
    cases m with
    | true =>
      cases a with
      | nil =>
        have := ih [] b
        simp [mergeByMask, List.countP_cons, hp] at this ⊢
        omega
      | cons x xs =>
        have := ih xs b
        simp only [mergeByMask, List.countP_cons]
        by_cases hx : p x = true <;> simp [hx] <;> omega
    | false =>
      cases b with
      | nil =>
        have := ih a []
        simp [mergeByMask, List.countP_cons, hp] at this ⊢
        omega
      | cons x xs =>
        have := ih a xs
        simp only [mergeByMask, List.countP_cons]
        by_cases hx : p x = true <;> simp [hx] <;> omega

theorem mem_mergeByMask :
    ∀ (ms : List Bool) (a b : List (Option Nat)) (x : Option Nat),
      x ∈ mergeByMask ms a b → x = none ∨ x ∈ a ∨ x ∈ b := by
  intro ms
  induction ms with
  | nil => intro a b x h; cases h
  | cons m msr ih =>
    intro a b x h
    cases m with
    | true =>
      cases a with
      | nil =>
        rcases List.mem_cons.mp h with h' | h'
        · exact Or.inl h'
        · rcases ih [] b x h' with h'' | h'' | h''
          · exact Or.inl h''
          · cases h''
          · exact Or.inr (Or.inr h'')
      | cons y ys =>
        rcases List.mem_cons.mp h with h' | h'
        · exact Or.inr (Or.inl (h' ▸ List.mem_cons_self y ys))
        · rcases ih ys b x h' with h'' | h'' | h''
          · exact Or.inl h''
          · exact Or.inr (Or.inl (List.mem_cons_of_mem _ h''))
          · exact Or.inr (Or.inr h'')
    | false =>
      cases b with
      | nil =>
        rcases List.mem_cons.mp h with h' | h'
        · exact Or.inl h'
        · rcases ih a [] x h' with h'' | h'' | h''
          · exact Or.inl h''
          · exact Or.inr (Or.inl h'')
          · cases h''
      | cons y ys =>
        rcases List.mem_cons.mp h with h' | h'
        · exact Or.inr (Or.inr (h' ▸ List.mem_cons_self y ys))
        · rcases ih a ys x h' with h'' | h'' | h''
          · exact Or.inl h''
          · exact Or.inr (Or.inl h'')
          · exact Or.inr (Or.inr (List.mem_cons_of_mem _ h''))

end EvoSim

namespace EvoSim

variable {V β : Type}

theorem map_fst_enumFromN {α : Type} :
    ∀ (n : Nat) (l : List α), (enumFromN n l).map Prod.fst = List.range' n l.length := by
  intro n l
  induction l generalizing n with
  | nil => rfl
  | cons a as ih => simp [enumFromN, List.range'_succ, ih]

theorem nodup_fst_indexPosts (posts : List (Post β)) :
    ((indexPosts posts).map Prod.fst).Nodup := by
  rw [indexPosts, map_fst_enumFromN]
  exact List.nodup_range' 0 posts.length

theorem enumFromN_mem_of_lt {α : Type} [Inhabited α] :
    ∀ (n : Nat) (l : List α) (i : Nat), i < l.length →
      (n + i, l.getD i default) ∈ enumFromN n l := by
  intro n l
  induction l generalizing n with
  | nil => intro i h; cases h
  | cons a as ih =>
    intro i h
    cases i with
    | zero => simp [enumFromN]
    | succ i =>
      have := ih (n + 1) i (by simpa using h)
      simp only [enumFromN, List.mem_cons]
      right
      have harr : n + (i + 1) = (n + 1) + i := by omega
      rw [harr]
      simpa using this

theorem indexPosts_mem_of_lt [Inhabited β] {posts : List (Post β)} {l : Nat}
    (h : l < posts.length) : (l, posts.getD l default) ∈ indexPosts posts := by
  have := enumFromN_mem_of_lt 0 posts l h
  simpa [indexPosts] using this

theorem nodup_fst_uniq {β : Type} {ips : List (Nat × Post β)} {l : Nat} {p q : Post β}
    (hnd : (ips.map Prod.fst).Nodup) (hp : (l, p) ∈ ips) (hq : (l, q) ∈ ips) : p = q := by
  induction ips with
  | nil => cases hp
  | cons e es ih =>
    have hnd' : (es.map Prod.fst).Nodup := (List.nodup_cons.mp (by simpa using hnd)).2
    have hne : e.1 ∉ es.map Prod.fst := (List.nodup_cons.mp (by simpa using hnd)).1
    rcases List.mem_cons.mp hp with hp' | hp' <;> rcases List.mem_cons.mp hq with hq' | hq'
    · rw [← hp'] at hq'
      injection hq' with h1 h2
      exact h2.symm
    · exfalso
      apply hne
      rw [← hp']
      exact List.mem_map.mpr ⟨(l, q), hq', rfl⟩
    · exfalso
      apply hne
      rw [← hq']
      exact List.mem_map.mpr ⟨(l, p), hp', rfl⟩
    · exact ih hnd' hp' hq'

theorem spareOf_fst_sub {β : Type} (ips : List (Nat × Post β)) (subAlloc : List (Option Nat)) :
    ((spareOf ips subAlloc).map Prod.fst).Sublist (ips.map Prod.fst) := by
  unfold spareOf
  have h1 : ((ips.map fun e =>
      ((e.1, { e.2 with occupancy := e.2.occupancy + subAlloc.countP fun a => a == some e.1 })
        : Nat × Post β)).filter fun e => e.2.occupancy < e.2.capacity).Sublist
      (ips.map fun e =>
        ((e.1, { e.2 with occupancy := e.2.occupancy + subAlloc.countP fun a => a == some e.1 })
          : Nat × Post β)) := List.filter_sublist _
  have h2 := h1.map Prod.fst
  have h3 : ((ips.map fun e =>
      ((e.1, { e.2 with occupancy := e.2.occupancy + subAlloc.countP fun a => a == some e.1 })
        : Nat × Post β)).map Prod.fst) = ips.map Prod.fst := by
    rw [List.map_map]
    rfl
  rwa [h3] at h2

theorem spareOf_nodup {β : Type} {ips : List (Nat × Post β)} (subAlloc : List (Option Nat))
    (hnd : (ips.map Prod.fst).Nodup) :
    (((spareOf ips subAlloc).map Prod.fst)).Nodup :=
  (spareOf_fst_sub ips subAlloc).nodup hnd

theorem spareOf_mem {β : Type} {ips : List (Nat × Post β)} {subAlloc : List (Option Nat)}
    {e : Nat × Post β} (h : e ∈ spareOf ips subAlloc) :
    e.2.occupancy < e.2.capacity ∧
      ∃ p, (e.1, p) ∈ ips ∧ e.2.attrs = p.attrs ∧ e.2.capacity = p.capacity ∧
        e.2.occupancy = p.occupancy + subAlloc.countP fun a => a == some e.1 := by
  unfold spareOf at h
  rw [List.mem_filter] at h
  obtain ⟨hm, hlt⟩ := h
  rw [List.mem_map] at hm
  obtain ⟨q, hq, he⟩ := hm
  refine ⟨by simpa using hlt, q.2, ?_, ?_, ?_, ?_⟩
  · rw [← he]
    exact hq
  · rw [← he]
  · rw [← he]
  · rw [← he]

end EvoSim

namespace EvoSim

variable {V β : Type}

theorem random_overbooking_zero [Inhabited β] (rng : Rng) (matcher : V → Post β → Bool)
    (mi ctr : Nat) (fleet : List V) (ips : List (Nat × Post β)) :
    random_overbooking rng matcher mi 0 ctr fleet ips =
      List.replicate fleet.length none := rfl

theorem random_overbooking_clear [Inhabited β] {rng : Rng} {matcher : V → Post β → Bool}
    {mi fuel ctr : Nat} {fleet : List V} {ips : List (Nat × Post β)}
    (h : fleet.length ≤ (totalVacancy ips).sum) :
    random_overbooking rng matcher mi (fuel + 1) ctr fleet ips =
      random_allocator_base matcher ips fleet (rng.shuffleNat ctr (expandVacancies ips)) mi := by
  rw [random_overbooking]
  simp only [h, if_pos]


theorem random_overbooking_over [Inhabited β] {rng : Rng} {matcher : V → Post β → Bool}
    {mi fuel ctr : Nat} {fleet : List V} {ips : List (Nat × Post β)}
    (h : ¬fleet.length ≤ (totalVacancy ips).sum) :
    random_overbooking rng matcher mi (fuel + 1) ctr fleet ips =
      if (spareOf ips (obSubAlloc rng matcher mi fuel ctr fleet ips)).isEmpty then
        mergeByMask (obFilter rng ctr fleet.length (totalVacancy ips).sum)
          (obSubAlloc rng matcher mi fuel ctr fleet ips)
          (List.replicate
            (maskSelectNot (obFilter rng ctr fleet.length (totalVacancy ips).sum) fleet).length
            none)
      else
        mergeByMask (obFilter rng ctr fleet.length (totalVacancy ips).sum)
          (obSubAlloc rng matcher mi fuel ctr fleet ips)
          (random_overbooking rng matcher mi fuel (ctr + 2)
            (maskSelectNot (obFilter rng ctr fleet.length (totalVacancy ips).sum) fleet)
            (spareOf ips (obSubAlloc rng matcher mi fuel ctr fleet ips))) := by
  rw [random_overbooking]
  simp only [h, if_neg, not_false_iff]
  rfl

end EvoSim

namespace EvoSim

variable {V β : Type}

theorem length_random_allocator_base [Inhabited β] (matcher : V → Post β → Bool)
    (ips : List (Nat × Post β)) (fleet : List V) (slots : List Nat) (maxiter : Nat) :
    (random_allocator_base matcher ips fleet slots maxiter).length = fleet.length := by
  unfold random_allocator_base
  exact length_allocFromCommits _ _

theorem countP_random_allocator_base [Inhabited β] (matcher : V → Post β → Bool)
    (ips : List (Nat × Post β)) (fleet : List V) (slots : List Nat) (maxiter l : Nat) :
    ((random_allocator_base matcher ips fleet slots maxiter).countP fun a => a == some l) ≤
      slots.count l := by
  unfold random_allocator_base
  calc ((allocFromCommits fleet.length _).countP fun a => a == some l)
      ≤ (randomLoop matcher ips _ (enumFromN 0 fleet) slots).countP fun c => c.2 == l :=
        countP_allocFromCommits _ _ _
    _ ≤ slots.count l := randomLoop_count matcher ips _ _ _ _

theorem mem_random_allocator_base [Inhabited V] [Inhabited β] {matcher : V → Post β → Bool}
    {ips : List (Nat × Post β)} {fleet : List V} {slots : List Nat} {maxiter : Nat}
    {x : Option Nat} (h : x ∈ random_allocator_base matcher ips fleet slots maxiter) :
    x = none ∨ ∃ l, x = some l ∧ l ∈ slots := by
  unfold random_allocator_base at h
  rcases mem_allocFromCommits h with h' | h'
  · exact Or.inl h'
  · obtain ⟨c, hc, hx⟩ := h'
    obtain ⟨-, -, hsl⟩ := randomLoop_mem matcher ips fleet _ _ _ (pairsOK_enum fleet) c hc
    exact Or.inr ⟨c.2, hx, hsl⟩

theorem getD_random_allocator_base [Inhabited V] [Inhabited β] {matcher : V → Post β → Bool}
    {ips : List (Nat × Post β)} {fleet : List V} {slots : List Nat} {maxiter : Nat}
    {i l : Nat} (h : (random_allocator_base matcher ips fleet slots maxiter).getD i none =
      some l) :
    i < fleet.length ∧ matcher (fleet.getD i default) (lookupPost ips l) = true ∧
      l ∈ slots := by
  unfold random_allocator_base at h
  have hc := getD_allocFromCommits h
  exact randomLoop_mem matcher ips fleet _ _ _ (pairsOK_enum fleet) (i, l) hc

theorem length_random_overbooking [Inhabited V] [Inhabited β] {rng : Rng}
    (hr : rng.Valid) (matcher : V → Post β → Bool) (mi : Nat) :
    ∀ (fuel ctr : Nat) (fleet : List V) (ips : List (Nat × Post β)),
      (random_overbooking rng matcher mi fuel ctr fleet ips).length = fleet.length := by
  intro fuel
  induction fuel with
  | zero => intro ctr fleet ips; simp [random_overbooking_zero]
  | succ fuel ih =>
    intro ctr fleet ips
    by_cases h : fleet.length ≤ (totalVacancy ips).sum
    · rw [random_overbooking_clear h]
      exact length_random_allocator_base matcher ips fleet _ mi
    · rw [random_overbooking_over h]
      have hfl : (obFilter rng ctr fleet.length (totalVacancy ips).sum).length =
          fleet.length := by
        unfold obFilter
        rw [(hr.2 ctr _).length_eq]
        simp
        omega
      by_cases hsp : (spareOf ips (obSubAlloc rng matcher mi fuel ctr fleet ips)).isEmpty <;>
        simp only [hsp, if_pos, Bool.false_eq_true, if_neg, not_false_iff] <;>
        rw [length_mergeByMask, hfl]

theorem mem_random_overbooking [Inhabited V] [Inhabited β] {rng : Rng}
    (hr : rng.Valid) (matcher : V → Post β → Bool) (mi : Nat) :
    ∀ (fuel ctr : Nat) (fleet : List V) (ips : List (Nat × Post β)) (x : Option Nat),
      x ∈ random_overbooking rng matcher mi fuel ctr fleet ips →
      x = none ∨ ∃ l, x = some l ∧ l ∈ ips.map Prod.fst := by
  intro fuel
  induction fuel with
  | zero =>
    intro ctr fleet ips x h
    rw [random_overbooking_zero] at h
    exact Or.inl (List.eq_of_mem_replicate h)
  | succ fuel ih =>
    intro ctr fleet ips x h
    have hbase : ∀ (fl : List V) (c : Nat) (x : Option Nat),
        x ∈ random_allocator_base matcher ips fl
          (rng.shuffleNat c (expandVacancies ips)) mi →
        x = none ∨ ∃ l, x = some l ∧ l ∈ ips.map Prod.fst := by
      intro fl c x hx
      rcases mem_random_allocator_base hx with h' | h'
      · exact Or.inl h'
      · obtain ⟨l, hxl, hsl⟩ := h'
        have : l ∈ expandVacancies ips := (hr.1 c _).mem_iff.mp hsl
        exact Or.inr ⟨l, hxl, mem_expandVacancies this⟩
    by_cases hcl : fleet.length ≤ (totalVacancy ips).sum
    · rw [random_overbooking_clear hcl] at h
      exact hbase fleet ctr x h
    · rw [random_overbooking_over hcl] at h
      have hsub : ∀ y ∈ obSubAlloc rng matcher mi fuel ctr fleet ips,
          y = none ∨ ∃ l, y = some l ∧ l ∈ ips.map Prod.fst := by
        intro y hy
        unfold obSubAlloc at hy
        by_cases hov : (totalVacancy ips).sum <
            (maskSelect (obFilter rng ctr fleet.length (totalVacancy ips).sum) fleet).length
        · rw [if_pos hov] at hy
          exact ih (ctr + 1) _ ips y hy
        · rw [if_neg hov] at hy
          exact hbase _ (ctr + 1) y hy
      by_cases hsp : (spareOf ips (obSubAlloc rng matcher mi fuel ctr fleet ips)).isEmpty
      · rw [if_pos hsp] at h
        rcases mem_mergeByMask _ _ _ _ h with h' | h' | h'
        · exact Or.inl h'
        · exact hsub x h'
        · exact Or.inl (List.eq_of_mem_replicate h')
      · rw [if_neg hsp] at h
        rcases mem_mergeByMask _ _ _ _ h with h' | h' | h'
        · exact Or.inl h'
        · exact hsub x h'
        · rcases ih (ctr + 2) _ _ x h' with h'' | h''
          · exact Or.inl h''
          · obtain ⟨l, hxl, hl⟩ := h''
            refine Or.inr ⟨l, hxl, ?_⟩
            exact (spareOf_fst_sub ips _).subset hl

end EvoSim

namespace EvoSim

variable {V β : Type}

theorem countP_random_overbooking_notmem [Inhabited V] [Inhabited β] {rng : Rng}
    (hr : rng.Valid) (matcher : V → Post β → Bool) (mi : Nat)
    (fuel ctr : Nat) (fleet : List V) (ips : List (Nat × Post β)) {l : Nat}
    (hl : l ∉ ips.map Prod.fst) :
    ((random_overbooking rng matcher mi fuel ctr fleet ips).countP fun a => a == some l) = 0 := by
  rw [List.countP_eq_zero]
  intro a ha hcon
  have hx := mem_random_overbooking hr matcher mi fuel ctr fleet ips a ha
  rcases hx with hx | hx
  · rw [hx] at hcon
    cases hcon
  · obtain ⟨l', hal, hl'⟩ := hx
    rw [hal] at hcon
    have : l' = l := by simpa using hcon
    rw [this] at hl'
    exact hl hl'

theorem countP_random_overbooking [Inhabited V] [Inhabited β] {rng : Rng}
    (hr : rng.Valid) (matcher : V → Post β → Bool) (mi : Nat) :
    ∀ (fuel ctr : Nat) (fleet : List V) (ips : List (Nat × Post β)),
      (ips.map Prod.fst).Nodup →
      (∀ e ∈ ips, e.2.occupancy ≤ e.2.capacity) →
      ∀ l p, (l, p) ∈ ips →
        ((random_overbooking rng matcher mi fuel ctr fleet ips).countP
          fun a => a == some l) ≤ p.vacancy := by
  intro fuel
  induction fuel with
  | zero =>
    intro ctr fleet ips _ _ l p _
    rw [random_overbooking_zero]
    have : ((List.replicate fleet.length (none : Option Nat)).countP
        fun a => a == some l) = 0 := by simp
    omega
  | succ fuel ih =>
    intro ctr fleet ips hnd hwf l p hmem
    have hbase : ∀ (fl : List V) (c : Nat),
        ((random_allocator_base matcher ips fl
          (rng.shuffleNat c (expandVacancies ips)) mi).countP fun a => a == some l) ≤
          p.vacancy := by
      intro fl c
      calc ((random_allocator_base matcher ips fl
            (rng.shuffleNat c (expandVacancies ips)) mi).countP fun a => a == some l)
          ≤ (rng.shuffleNat c (expandVacancies ips)).count l :=
            countP_random_allocator_base matcher ips fl _ mi l
        _ = (expandVacancies ips).count l := (hr.1 c _).count_eq l
        _ = p.vacancy := count_expandVacancies hnd hmem
    by_cases hcl : fleet.length ≤ (totalVacancy ips).sum
    · rw [random_overbooking_clear hcl]
      exact hbase fleet ctr
    · rw [random_overbooking_over hcl]
      have hsub : ((obSubAlloc rng matcher mi fuel ctr fleet ips).countP
          fun a => a == some l) ≤ p.vacancy := by
        unfold obSubAlloc
        by_cases hov : (totalVacancy ips).sum <
            (maskSelect (obFilter rng ctr fleet.length (totalVacancy ips).sum) fleet).length
        · rw [if_pos hov]
          exact ih (ctr + 1) _ ips hnd hwf l p hmem
        · rw [if_neg hov]
          exact hbase _ (ctr + 1)
      have hnone : ((fun a => a == some l) (none : Option Nat)) = false := rfl
      have hwfp : p.occupancy ≤ p.capacity := hwf (l, p) hmem
      by_cases hsp : (spareOf ips (obSubAlloc rng matcher mi fuel ctr fleet ips)).isEmpty
      · rw [if_pos hsp]
        have hm := countP_mergeByMask (fun a => a == some l) hnone
          (obFilter rng ctr fleet.length (totalVacancy ips).sum)
          (obSubAlloc rng matcher mi fuel ctr fleet ips)
          (List.replicate
            (maskSelectNot (obFilter rng ctr fleet.length (totalVacancy ips).sum)
              fleet).length none)
        have hz : ((List.replicate
            (maskSelectNot (obFilter rng ctr fleet.length (totalVacancy ips).sum)
              fleet).length (none : Option Nat)).countP fun a => a == some l) = 0 := by
          simp
        omega
      · rw [if_neg hsp]
        have hm := countP_mergeByMask (fun a => a == some l) hnone
          (obFilter rng ctr fleet.length (totalVacancy ips).sum)
          (obSubAlloc rng matcher mi fuel ctr fleet ips)
          (random_overbooking rng matcher mi fuel (ctr + 2)
            (maskSelectNot (obFilter rng ctr fleet.length (totalVacancy ips).sum) fleet)
            (spareOf ips (obSubAlloc rng matcher mi fuel ctr fleet ips)))
        set spare := spareOf ips (obSubAlloc rng matcher mi fuel ctr fleet ips) with hspare
        have hsnd : (spare.map Prod.fst).Nodup := spareOf_nodup _ hnd
        have hswf : ∀ e ∈ spare, e.2.occupancy ≤ e.2.capacity := by
          intro e he
          exact Nat.le_of_lt (spareOf_mem he).1
        by_cases hls : l ∈ spare.map Prod.fst
        · obtain ⟨e, he, hel⟩ := List.mem_map.mp hls
          rcases e with ⟨l', q'⟩
          simp only at hel
          subst hel
          obtain ⟨hlt, q, hq, hcap, hocc⟩ := spareOf_mem he
          simp only at hlt hq hcap hocc
          have hqp : q = p := nodup_fst_uniq hnd hq hmem
          subst hqp
          have hleft := ih (ctr + 2)
            (maskSelectNot (obFilter rng ctr fleet.length (totalVacancy ips).sum) fleet)
            spare hsnd hswf l' q' he
          unfold Post.vacancy at hleft hsub ⊢
          omega
        · have hz := countP_random_overbooking_notmem hr matcher mi fuel (ctr + 2)
            (maskSelectNot (obFilter rng ctr fleet.length (totalVacancy ips).sum) fleet)
            spare hls
          omega

end EvoSim

namespace EvoSim

variable {V β : Type}

theorem mergeByMask_align [Inhabited V] {P : V → Option Nat → Prop} (hP : ∀ v, P v none) :
    ∀ (filt : List Bool) (fleet : List V) (a b : List (Option Nat)),
      (∀ j, P ((maskSelect filt fleet).getD j default) (a.getD j none)) →
      (∀ j, P ((maskSelectNot filt fleet).getD j default) (b.getD j none)) →
      ∀ i, P (fleet.getD i default) ((mergeByMask filt a b).getD i none) := by
  intro filt
  induction filt with
  | nil =>
    intro fleet a b _ _ i
    exact hP _
  | cons t ms ih =>
    intro fleet a b h1 h2 i
    cases t
    · cases b with
      | nil =>
        cases i with
        | zero => exact hP _
        | succ i =>
          cases fleet with
          | nil =>
            exact ih [] a [] (fun j => h1 j) (fun _ => hP _) i
          | cons v vs =>
            exact ih vs a [] (fun j => h1 j) (fun _ => hP _) i
      | cons x xs =>
        cases i with
        | zero =>
          cases fleet with
          | nil => exact h2 0
          | cons v vs => exact h2 0
        | succ i =>
          cases fleet with
          | nil =>
            exact ih [] a xs (fun j => h1 j) (fun j => h2 (j + 1)) i
          | cons v vs =>
            exact ih vs a xs (fun j => h1 j) (fun j => h2 (j + 1)) i
    · cases a with
      | nil =>
        cases i with
        | zero => exact hP _
        | succ i =>
          cases fleet with
          | nil =>
            exact ih [] [] b (fun _ => hP _) (fun j => h2 j) i
          | cons v vs =>
            exact ih vs [] b (fun _ => hP _) (fun j => h2 j) i
      | cons x xs =>
        cases i with
        | zero =>
          cases fleet with
          | nil => exact h1 0
          | cons v vs => exact h1 0
        | succ i =>
          cases fleet with
          | nil =>
            exact ih [] xs b (fun j => h1 (j + 1)) (fun j => h2 j) i
          | cons v vs =>
            exact ih vs xs b (fun j => h1 (j + 1)) (fun j => h2 j) i

end EvoSim

namespace EvoSim

variable {V β : Type}

/-- A matcher that does not read the occupancy column (all the repository's
built-in matchers except `charging_post_availability`). -/
def OccInsensitive (matcher : V → Post β → Bool) : Prop :=
  ∀ (v : V) (p : Post β) (n : Nat), matcher v { p with occupancy := n } = matcher v p

/-- A working subtable agrees with the original infrastructure up to the
occupancy column: each labelled row has the original row's attributes and
capacity. -/
def AgreesUpToOcc [Inhabited β] (ips : List (Nat × Post β)) (posts : List (Post β)) : Prop :=
  ∀ e ∈ ips, e.2.attrs = (posts.getD e.1 default).attrs ∧
    e.2.capacity = (posts.getD e.1 default).capacity

theorem agrees_indexPosts [Inhabited β] (posts : List (Post β)) :
    AgreesUpToOcc (indexPosts posts) posts := by
  intro e he
  obtain ⟨-, h2, h3⟩ := mem_enumFromN (l := posts) (by simpa [indexPosts] using he)
  constructor <;> rw [show posts.getD e.1 default = e.2 from by simpa using h3]

theorem spareOf_agrees [Inhabited β] {ips : List (Nat × Post β)} {posts : List (Post β)}
    {subAlloc : List (Option Nat)} (hag : AgreesUpToOcc ips posts) :
    AgreesUpToOcc (spareOf ips subAlloc) posts := by
  intro e he
  obtain ⟨-, p, hp, hattrs, hcap, -⟩ := spareOf_mem he
  obtain ⟨ha, hc⟩ := hag (e.1, p) hp
  exact ⟨by rw [hattrs]; exact ha, by rw [hcap]; exact hc⟩

theorem lookup_agrees [Inhabited β] {matcher : V → Post β → Bool}
    (hocc : OccInsensitive matcher) {ips : List (Nat × Post β)} {posts : List (Post β)}
    (hag : AgreesUpToOcc ips posts) {l : Nat} (hl : l ∈ ips.map Prod.fst) (v : V) :
    matcher v (lookupPost ips l) = matcher v (posts.getD l default) := by
  obtain ⟨e, he, hel⟩ := List.mem_map.mp hl
  rcases hfind : ips.find? fun e => e.1 == l with _ | e'
  · exfalso
    have := List.find?_eq_none.mp hfind e he
    apply this
    simp [hel]
  · have hpred := List.find?_some (p := fun e : Nat × Post β => e.1 == l) hfind
    have hmem : e' ∈ ips := List.mem_of_find?_eq_some hfind
    have hel' : e'.1 = l := by simpa using hpred
    obtain ⟨ha, hc⟩ := hag e' hmem
    rw [hel'] at ha hc
    unfold lookupPost
    rw [hfind]
    simp only [Option.getD_some]
    rcases hq : e'.2 with ⟨a, c, o⟩
    rw [hq] at ha hc
    simp only at ha hc
    have hrw : ({ attrs := a, capacity := c, occupancy := o } : Post β) =
        { posts.getD l default with occupancy := o } := by
      rw [ha, hc]
    rw [hrw]
    exact hocc v (posts.getD l default) o

/-- Compatibility of `random_overbooking` results, traced back to the original
infrastructure rows: any occupancy-insensitive matcher accepts every
assigned (vehicle, post) pair of the original tables. -/
theorem compat_random_overbooking [Inhabited V] [Inhabited β] {rng : Rng}
    (hr : rng.Valid) {matcher : V → Post β → Bool} (hocc : OccInsensitive matcher)
    (mi : Nat) {posts : List (Post β)} :
    ∀ (fuel ctr : Nat) (fleet : List V) (ips : List (Nat × Post β)),
      AgreesUpToOcc ips posts →
      ∀ i l, (random_overbooking rng matcher mi fuel ctr fleet ips).getD i none = some l →
        matcher (fleet.getD i default) (posts.getD l default) = true := by
  intro fuel
  induction fuel with
  | zero =>
    intro ctr fleet ips _ i l h
    rw [random_overbooking_zero] at h
    exfalso
    rcases Nat.lt_or_ge i fleet.length with hlt | hge
    · rw [List.getD_eq_getElem?_getD, List.getElem?_replicate, if_pos hlt] at h
      cases h
    · rw [List.getD_eq_default _ _ (by simpa using hge)] at h
      cases h
  | succ fuel ih =>
    intro ctr fleet ips hag i l h
    have hbase : ∀ (fl : List V) (c : Nat) (i l : Nat),
        (random_allocator_base matcher ips fl
          (rng.shuffleNat c (expandVacancies ips)) mi).getD i none = some l →
        matcher (fl.getD i default) (posts.getD l default) = true := by
      intro fl c i l hx
      obtain ⟨-, hmv, hsl⟩ := getD_random_allocator_base hx
      have hl : l ∈ ips.map Prod.fst :=
        mem_expandVacancies ((hr.1 c _).mem_iff.mp hsl)
      rwa [lookup_agrees hocc hag hl] at hmv
    by_cases hcl : fleet.length ≤ (totalVacancy ips).sum
    · rw [random_overbooking_clear hcl] at h
      exact hbase fleet ctr i l h
    · rw [random_overbooking_over hcl] at h
      have hsub : ∀ j l, (obSubAlloc rng matcher mi fuel ctr fleet ips).getD j none = some l →
          matcher
            ((maskSelect (obFilter rng ctr fleet.length (totalVacancy ips).sum) fleet).getD j
              default) (posts.getD l default) = true := by
        intro j l hj
        unfold obSubAlloc at hj
        by_cases hov : (totalVacancy ips).sum <
            (maskSelect (obFilter rng ctr fleet.length (totalVacancy ips).sum) fleet).length
        · rw [if_pos hov] at hj
          exact ih (ctr + 1) _ ips hag j l hj
        · rw [if_neg hov] at hj
          exact hbase _ (ctr + 1) j l hj
      have halign := mergeByMask_align
        (P := fun v o => ∀ l, o = some l →
          matcher v (posts.getD l default) = true)
        (fun v l hl => by cases hl)
        (obFilter rng ctr fleet.length (totalVacancy ips).sum) fleet
      by_cases hsp : (spareOf ips (obSubAlloc rng matcher mi fuel ctr fleet ips)).isEmpty
      · rw [if_pos hsp] at h
        refine halign _ _ ?_ ?_ i l h
        · intro j l hj
          exact hsub j l hj
        · intro j l hj
          exfalso
          rcases Nat.lt_or_ge j (maskSelectNot
              (obFilter rng ctr fleet.length (totalVacancy ips).sum) fleet).length with hlt | hge
          · rw [List.getD_eq_getElem?_getD, List.getElem?_replicate, if_pos hlt] at hj
            cases hj
          · rw [List.getD_eq_default _ _ (by simpa using hge)] at hj
            cases hj
      · rw [if_neg hsp] at h
        refine halign _ _ ?_ ?_ i l h
        · intro j l hj
          exact hsub j l hj
        · intro j l hj
          exact ih (ctr + 2) _ _ (spareOf_agrees hag) j l hj

end EvoSim

namespace EvoSim

variable {V β : Type}

theorem length_obFilter {rng : Rng} (hr : rng.Valid) (ctr n tv : Nat) (h : tv ≤ n) :
    (obFilter rng ctr n tv).length = n := by
  unfold obFilter
  rw [(hr.2 ctr _).length_eq]
  simp
  omega

theorem count_true_obFilter {rng : Rng} (hr : rng.Valid) (ctr n tv : Nat) :
    (obFilter rng ctr n tv).count true = tv := by
  unfold obFilter
  rw [(hr.2 ctr _).count_eq]
  rw [List.count_append, List.count_replicate, List.count_replicate]
  simp

theorem count_false_obFilter {rng : Rng} (hr : rng.Valid) (ctr n tv : Nat) :
    (obFilter rng ctr n tv).count false = n - tv := by
  unfold obFilter
  rw [(hr.2 ctr _).count_eq]
  rw [List.count_append, List.count_replicate, List.count_replicate]
  simp

theorem length_obSub {rng : Rng} (hr : rng.Valid) (ctr : Nat) (fleet : List V)
    (tv : Nat) (h : tv ≤ fleet.length) :
    (maskSelect (obFilter rng ctr fleet.length tv) fleet).length = tv := by
  rw [length_maskSelect _ _ (length_obFilter hr ctr fleet.length tv h),
    count_true_obFilter hr]

theorem length_obLeftover {rng : Rng} (hr : rng.Valid) (ctr : Nat) (fleet : List V)
    (tv : Nat) (h : tv ≤ fleet.length) :
    (maskSelectNot (obFilter rng ctr fleet.length tv) fleet).length =
      fleet.length - tv := by
  rw [length_maskSelectNot _ _ (length_obFilter hr ctr fleet.length tv h),
    count_false_obFilter hr]

theorem obSubAlloc_eq_base [Inhabited β] {rng : Rng} (hr : rng.Valid)
    {matcher : V → Post β → Bool} {mi fuel ctr : Nat} {fleet : List V}
    {ips : List (Nat × Post β)} (hov : (totalVacancy ips).sum < fleet.length) :
    obSubAlloc rng matcher mi fuel ctr fleet ips =
      random_allocator_base matcher ips
        (maskSelect (obFilter rng ctr fleet.length (totalVacancy ips).sum) fleet)
        (rng.shuffleNat (ctr + 1) (expandVacancies ips)) mi := by
  unfold obSubAlloc
  rw [if_neg]
  rw [length_obSub hr ctr fleet _ (Nat.le_of_lt hov)]
  omega

theorem spare_nonempty_vacancy_pos {β : Type} {ips : List (Nat × Post β)}
    {subAlloc : List (Option Nat)} (h : ¬(spareOf ips subAlloc).isEmpty = true) :
    1 ≤ (totalVacancy ips).sum := by
  rcases hsp : spareOf ips subAlloc with _ | ⟨e, es⟩
  · rw [hsp] at h
    simp at h
  · have he : e ∈ spareOf ips subAlloc := by rw [hsp]; simp
    obtain ⟨hlt, p, hp, -, hcap, hocc⟩ := spareOf_mem he
    have hvac : 1 ≤ p.vacancy := by
      unfold Post.vacancy
      omega
    have hmem : p.vacancy ∈ totalVacancy ips := by
      unfold totalVacancy
      exact List.mem_map.mpr ⟨(e.1, p), hp, rfl⟩
    have := List.single_le_sum (l := totalVacancy ips) (fun x _ => Nat.zero_le x) _ hmem
    omega

theorem random_overbooking_fuel_stable [Inhabited V] [Inhabited β] {rng : Rng}
    (hr : rng.Valid) (matcher : V → Post β → Bool) (mi : Nat) :
    ∀ (n : Nat) (fleet : List V) (ips : List (Nat × Post β)) (f g ctr : Nat),
      fleet.length ≤ n → fleet.length < f → fleet.length < g →
      random_overbooking rng matcher mi f ctr fleet ips =
        random_overbooking rng matcher mi g ctr fleet ips := by
  intro n
  induction n with
  | zero =>
    intro fleet ips f g ctr hn hf hg
    rcases f with _ | f
    · omega
    rcases g with _ | g
    · omega
    have hcl : fleet.length ≤ (totalVacancy ips).sum := by omega
    rw [random_overbooking_clear hcl, random_overbooking_clear hcl]
  | succ n ih =>
    intro fleet ips f g ctr hn hf hg
    rcases f with _ | f
    · omega
    rcases g with _ | g
    · omega
    by_cases hcl : fleet.length ≤ (totalVacancy ips).sum
    · rw [random_overbooking_clear hcl, random_overbooking_clear hcl]
    · have hov : (totalVacancy ips).sum < fleet.length := by omega
      rw [random_overbooking_over hcl, random_overbooking_over hcl]
      rw [obSubAlloc_eq_base hr hov, obSubAlloc_eq_base hr hov]
      by_cases hsp : (spareOf ips
          (random_allocator_base matcher ips
            (maskSelect (obFilter rng ctr fleet.length (totalVacancy ips).sum) fleet)
            (rng.shuffleNat (ctr + 1) (expandVacancies ips)) mi)).isEmpty
      · rw [if_pos hsp, if_pos hsp]
      · rw [if_neg hsp, if_neg hsp]
        have htv : 1 ≤ (totalVacancy ips).sum := spare_nonempty_vacancy_pos hsp
        have hlen : (maskSelectNot (obFilter rng ctr fleet.length (totalVacancy ips).sum)
            fleet).length = fleet.length - (totalVacancy ips).sum :=
          length_obLeftover hr ctr fleet _ (Nat.le_of_lt hov)
        rw [ih _ _ f g (ctr + 2) (by omega) (by omega) (by omega)]

end EvoSim

namespace EvoSim

variable {V β : Type}

theorem length_voidOverbookingAux (vac : Nat → Nat) :
    ∀ (props : List (Option Nat)) (counts : Nat → Nat),
      (voidOverbookingAux vac counts props).length = props.length := by
  intro props
  induction props with
  | nil => intro counts; rfl
  | cons x rest ih =>
    intro counts
    cases x with
    | none => simp [voidOverbookingAux, ih]
    | some l => simp [voidOverbookingAux, ih]

theorem getD_voidOverbookingAux (vac : Nat → Nat) :
    ∀ (props : List (Option Nat)) (counts : Nat → Nat) (i : Nat) (l : Nat),
      (voidOverbookingAux vac counts props).getD i none = some l ↔
        props.getD i none = some l ∧
          counts l + ((props.take i).countP fun a => a == some l) < vac l := by
  intro props
  induction props with
  | nil =>
    intro counts i l
    constructor
    · intro h
      cases h
    · rintro ⟨h, -⟩
      cases h
  | cons x rest ih =>
    intro counts i l
    cases x with
    | none =>
      cases i with
      | zero =>
        simp only [voidOverbookingAux, List.getD_cons_zero, List.take_zero]
        constructor
        · intro h; cases h
        · rintro ⟨h, -⟩; cases h
      | succ i =>
        simp only [voidOverbookingAux, List.getD_cons_succ, List.take_succ_cons,
          List.countP_cons]
        rw [ih]
        have hbeq : ((none : Option Nat) == some l) = false := rfl
        rw [hbeq]
        constructor
        · rintro ⟨h1, h2⟩
          refine ⟨h1, ?_⟩
          simpa using h2
        · rintro ⟨h1, h2⟩
          refine ⟨h1, ?_⟩
          simpa using h2
    | some m =>
      cases i with
      | zero =>
        simp only [voidOverbookingAux, List.getD_cons_zero, List.take_zero]
        by_cases hc : counts m < vac m
        · rw [if_pos hc]
          constructor
          · intro h
            injection h with h'
            subst h'
            simpa using hc
          · rintro ⟨h, -⟩
            exact h
        · rw [if_neg hc]
          constructor
          · intro h; cases h
          · rintro ⟨h, h2⟩
            injection h with h'
            subst h'
            simp at h2
            omega
      | succ i =>
        simp only [voidOverbookingAux, List.getD_cons_succ, List.take_succ_cons,
          List.countP_cons]
        rw [ih]
        by_cases hml : m = l
        · subst hml
          have hself : (if m = m then counts m + 1 else counts m) =
              counts m + 1 := by simp
          have hbeq : ((some m : Option Nat) == some m) = true := by simp
          rw [hself, hbeq]
          constructor
          · rintro ⟨h1, h2⟩
            refine ⟨h1, ?_⟩
            simp only [if_pos rfl] at h2 ⊢
            simp
            omega
          · rintro ⟨h1, h2⟩
            refine ⟨h1, ?_⟩
            simp only [if_pos rfl] at h2 ⊢
            simp at h2
            omega
        · have hother : (if l = m then counts l + 1 else counts l) =
              counts l := by
            rw [if_neg (fun h => hml h.symm)]
          have hbeq : ((some m : Option Nat) == some l) = false := by
            simp [hml]
          rw [hother, hbeq]
          constructor
          · rintro ⟨h1, h2⟩
            refine ⟨h1, ?_⟩
            simpa using h2
          · rintro ⟨h1, h2⟩
            refine ⟨h1, ?_⟩
            simpa using h2

theorem countP_voidOverbookingAux (vac : Nat → Nat) :
    ∀ (props : List (Option Nat)) (counts : Nat → Nat) (l : Nat),
      ((voidOverbookingAux vac counts props).countP fun a => a == some l) ≤
        vac l - counts l := by
  intro props
  induction props with
  | nil => intro counts l; simp [voidOverbookingAux]
  | cons x rest ih =>
    intro counts l
    cases x with
    | none =>
      have hih := ih counts l
      simp only [voidOverbookingAux, List.countP_cons]
      have hbeq : ((none : Option Nat) == some l) = false := rfl
      simp [hbeq]
      omega
    | some m =>
      simp only [voidOverbookingAux, List.countP_cons]
      by_cases hml : m = l
      · subst hml
        have hih := ih (fun x => if x = m then counts x + 1 else counts x) m
        have hself : (if m = m then counts m + 1 else counts m) =
            counts m + 1 := by simp
        rw [hself] at hih
        by_cases hc : counts m < vac m
        · rw [if_pos hc]
          have hbeq : ((some m : Option Nat) == some m) = true := by simp
          simp [hbeq]
          omega
        · rw [if_neg hc]
          have hbeq : ((none : Option Nat) == some m) = false := rfl
          simp [hbeq]
          omega
      · have hih := ih (fun x => if x = m then counts x + 1 else counts x) l
        have hother : (if l = m then counts l + 1 else counts l) =
            counts l := by
          rw [if_neg (fun h => hml h.symm)]
        rw [hother] at hih
        by_cases hc : counts m < vac m
        · rw [if_pos hc]
          have hbeq : ((some m : Option Nat) == some l) = false := by simp [hml]
          simp [hbeq]
          omega
        · rw [if_neg hc]
          have hbeq : ((none : Option Nat) == some l) = false := rfl
          simp [hbeq]
          omega

theorem getD_voidOverbookingAux_none (vac : Nat → Nat) (props : List (Option Nat))
    (counts : Nat → Nat) (i : Nat) (h : props.getD i none = none) :
    (voidOverbookingAux vac counts props).getD i none = none := by
  rcases hx : (voidOverbookingAux vac counts props).getD i none with _ | l
  · rfl
  · have := (getD_voidOverbookingAux vac props counts i l).mp hx
    rw [h] at this
    cases this.1

end EvoSim

namespace EvoSim

variable {V β : Type}

theorem getD_map_enumFromN {α γ : Type} [Inhabited α] (f : Nat × α → γ) (d : γ) :
    ∀ (l : List α) (n i : Nat), i < l.length →
      ((enumFromN n l).map f).getD i d = f (n + i, l.getD i default) := by
  intro l
  induction l with
  | nil => intro n i h; cases h
  | cons a as ih =>
    intro n i h
    cases i with
    | zero => simp [enumFromN]
    | succ i =>
      have := ih (n + 1) i (by simpa using h)
      simp only [enumFromN, List.map_cons, List.getD_cons_succ, List.getD_cons_succ]
      rw [this]
      have harr : n + (i + 1) = (n + 1) + i := by omega
      rw [harr]

theorem getD_out_of_range {α : Type} (l : List α) (d : α) {i : Nat} (h : l.length ≤ i) :
    l.getD i d = d := List.getD_eq_default l d h

theorem length_proposals [Inhabited V] [Inhabited β] (matcher : V → Post β → Bool)
    (query : List (Nat × Post β) → V → List Nat) (avail : List (Nat × Post β)) (k : Nat)
    (fleet : List V) (alloc : List (Option Nat)) :
    (proposals matcher query avail k fleet alloc).length = fleet.length := by
  unfold proposals
  rw [List.length_map, length_enumFromN]

theorem getD_proposals [Inhabited V] [Inhabited β] (matcher : V → Post β → Bool)
    (query : List (Nat × Post β) → V → List Nat) (avail : List (Nat × Post β)) (k : Nat)
    (fleet : List V) (alloc : List (Option Nat)) {i : Nat} (h : i < fleet.length) :
    (proposals matcher query avail k fleet alloc).getD i none =
      if (alloc.getD i none).isSome then none
      else firstMatchLabel matcher avail ((query avail (fleet.getD i default)).take k)
        (fleet.getD i default) := by
  unfold proposals
  rw [getD_map_enumFromN _ _ fleet 0 i h]
  simp

theorem proposals_some_lt [Inhabited V] [Inhabited β] {matcher : V → Post β → Bool}
    {query : List (Nat × Post β) → V → List Nat} {avail : List (Nat × Post β)} {k : Nat}
    {fleet : List V} {alloc : List (Option Nat)} {i l : Nat}
    (h : (proposals matcher query avail k fleet alloc).getD i none = some l) :
    i < fleet.length := by
  by_contra hge
  rw [getD_out_of_range _ _ (by rw [length_proposals]; omega)] at h
  cases h

theorem firstMatchLabel_some [Inhabited β] {matcher : V → Post β → Bool}
    {avail : List (Nat × Post β)} {cand : List Nat} {v : V} {l : Nat}
    (h : firstMatchLabel matcher avail cand v = some l) :
    ∃ j ∈ cand, matcher v (avail.getD j (0, default)).2 = true ∧
      (avail.getD j (0, default)).1 = l := by
  unfold firstMatchLabel at h
  rcases hf : cand.find? fun j => matcher v (avail.getD j (0, default)).2 with _ | j
  · rw [hf] at h
    cases h
  · rw [hf] at h
    have hj1 := List.find?_some (p := fun j => matcher v (avail.getD j (0, default)).2) hf
    have hj2 := List.mem_of_find?_eq_some hf
    injection h with h'
    exact ⟨j, hj2, hj1, h'⟩

theorem mem_availPosts [Inhabited β] {posts : List (Post β)} {occ : List Nat}
    {e : Nat × Post β} (h : e ∈ availPosts posts occ) :
    e.1 < posts.length ∧ occ.getD e.1 0 < (posts.getD e.1 default).capacity ∧
      e.2 = workingPost posts occ e.1 := by
  unfold availPosts at h
  rw [List.mem_map] at h
  obtain ⟨l, hl, he⟩ := h
  unfold availLabels at hl
  rw [List.mem_filter, List.mem_range] at hl
  rw [← he]
  exact ⟨hl.1, by simpa using hl.2, rfl⟩

theorem getD_mem {α : Type} {l : List α} {d : α} {i : Nat} (h : i < l.length) :
    l.getD i d ∈ l := by
  rw [List.getD_eq_getElem?_getD, List.getElem?_eq_getElem h]
  simp

end EvoSim

namespace EvoSim

variable {V β : Type}

theorem length_greedyRound [Inhabited V] [Inhabited β] (matcher : V → Post β → Bool)
    (query : List (Nat × Post β) → V → List Nat) (posts : List (Post β)) (fleet : List V)
    (nn : Nat) (occ : List Nat) (alloc : List (Option Nat)) :
    (greedyRound matcher query posts fleet nn occ alloc).length = fleet.length := by
  unfold greedyRound void_overbooking
  rw [length_voidOverbookingAux, length_proposals]

/-- Characterization of one greedy round: a vehicle receives exactly its
nearest matching candidate, and only while the picks made by earlier fleet
rows have not yet filled the post's remaining vacancy. -/
theorem getD_greedyRound [Inhabited V] [Inhabited β] (matcher : V → Post β → Bool)
    (query : List (Nat × Post β) → V → List Nat) (posts : List (Post β)) (fleet : List V)
    (nn : Nat) (occ : List Nat) (alloc : List (Option Nat)) (i l : Nat) :
    (greedyRound matcher query posts fleet nn occ alloc).getD i none = some l ↔
      ((proposals matcher query (availPosts posts occ)
          (min nn (availPosts posts occ).length) fleet alloc).getD i none = some l ∧
        (((proposals matcher query (availPosts posts occ)
            (min nn (availPosts posts occ).length) fleet alloc).take i).countP
          fun a => a == some l) < workingVacancy posts occ l) := by
  unfold greedyRound void_overbooking
  rw [getD_voidOverbookingAux]
  constructor
  · rintro ⟨h1, h2⟩
    exact ⟨h1, by simpa using h2⟩
  · rintro ⟨h1, h2⟩
    exact ⟨h1, by simpa using h2⟩

theorem countP_greedyRound [Inhabited V] [Inhabited β] (matcher : V → Post β → Bool)
    (query : List (Nat × Post β) → V → List Nat) (posts : List (Post β)) (fleet : List V)
    (nn : Nat) (occ : List Nat) (alloc : List (Option Nat)) (l : Nat) :
    ((greedyRound matcher query posts fleet nn occ alloc).countP fun a => a == some l) ≤
      workingVacancy posts occ l := by
  unfold greedyRound void_overbooking
  have := countP_voidOverbookingAux (workingVacancy posts occ)
    (proposals matcher query (availPosts posts occ)
      (min nn (availPosts posts occ).length) fleet alloc) (fun _ => 0) l
  simpa using this

theorem greedyRound_some [Inhabited V] [Inhabited β] {matcher : V → Post β → Bool}
    {query : List (Nat × Post β) → V → List Nat} {posts : List (Post β)} {fleet : List V}
    {nn : Nat} {occ : List Nat} {alloc : List (Option Nat)} {i l : Nat}
    (h : (greedyRound matcher query posts fleet nn occ alloc).getD i none = some l) :
    i < fleet.length ∧ alloc.getD i none = none ∧
      firstMatchLabel matcher (availPosts posts occ)
        ((query (availPosts posts occ) (fleet.getD i default)).take
          (min nn (availPosts posts occ).length)) (fleet.getD i default) = some l := by
  obtain ⟨h1, -⟩ := (getD_greedyRound matcher query posts fleet nn occ alloc i l).mp h
  have hi : i < fleet.length := proposals_some_lt h1
  rw [getD_proposals matcher query _ _ fleet alloc hi] at h1
  by_cases ha : (alloc.getD i none).isSome
  · rw [if_pos ha] at h1
    cases h1
  · rw [if_neg ha] at h1
    refine ⟨hi, ?_, h1⟩
    rcases hx : alloc.getD i none with _ | v
    · rfl
    · rw [hx] at ha
      simp at ha

theorem greedyRound_some_lt [Inhabited V] [Inhabited β] {matcher : V → Post β → Bool}
    {query : List (Nat × Post β) → V → List Nat} {posts : List (Post β)} {fleet : List V}
    {nn : Nat} {occ : List Nat} {alloc : List (Option Nat)} {i l : Nat}
    (hne : 0 < posts.length)
    (h : (greedyRound matcher query posts fleet nn occ alloc).getD i none = some l) :
    l < posts.length := by
  obtain ⟨-, -, hfm⟩ := greedyRound_some h
  obtain ⟨j, -, -, hjl⟩ := firstMatchLabel_some hfm
  rcases Nat.lt_or_ge j (availPosts posts occ).length with hj | hj
  · have hmem := getD_mem (l := availPosts posts occ) (d := (0, default)) hj
    have := mem_availPosts hmem
    rw [hjl] at this
    exact this.1
  · rw [getD_out_of_range _ _ hj] at hjl
    simp only at hjl
    omega

theorem greedyRound_none [Inhabited V] [Inhabited β] (matcher : V → Post β → Bool)
    (query : List (Nat × Post β) → V → List Nat) (posts : List (Post β)) (fleet : List V)
    (nn : Nat) (occ : List Nat) (alloc : List (Option Nat)) {i : Nat}
    (h : (alloc.getD i none).isSome) :
    (greedyRound matcher query posts fleet nn occ alloc).getD i none = none := by
  rcases hx : (greedyRound matcher query posts fleet nn occ alloc).getD i none with _ | l
  · rfl
  · obtain ⟨-, h2, -⟩ := greedyRound_some hx
    rw [h2] at h
    cases h

theorem getD_zipWith_commit :
    ∀ (alloc newly : List (Option Nat)), alloc.length = newly.length → ∀ (i : Nat),
      (List.zipWith (fun a n => if a.isSome then a else n) alloc newly).getD i none =
        if (alloc.getD i none).isSome then alloc.getD i none else newly.getD i none := by
  intro alloc
  induction alloc with
  | nil =>
    intro newly h i
    have : newly = [] := by
      cases newly
      · rfl
      · cases h
    rw [this]
    simp
  | cons a as ih =>
    intro newly hlen i
    cases newly with
    | nil => cases hlen
    | cons x xs =>
      have hlen' : as.length = xs.length := by simpa using hlen
      cases i with
      | zero =>
        rfl
      | succ i =>
        simp only [List.zipWith_cons_cons, List.getD_cons_succ]
        exact ih xs hlen' i

theorem countP_zipWith_commit (l : Nat) :
    ∀ (alloc newly : List (Option Nat)),
      alloc.length = newly.length →
      (∀ i, (newly.getD i none).isSome → alloc.getD i none = none) →
      ((List.zipWith (fun a n => if a.isSome then a else n) alloc newly).countP
          fun a => a == some l) =
        (alloc.countP fun a => a == some l) + (newly.countP fun a => a == some l) := by
  intro alloc
  induction alloc with
  | nil =>
    intro newly h _
    have : newly = [] := by
      cases newly
      · rfl
      · cases h
    rw [this]
    rfl
  | cons a as ih =>
    intro newly hlen hdis
    cases newly with
    | nil => cases hlen
    | cons x xs =>
      have hlen' : as.length = xs.length := by simpa using hlen
      have hdis' : ∀ i, (xs.getD i none).isSome → as.getD i none = none := by
        intro i hi
        exact hdis (i + 1) (by simpa using hi)
      simp only [List.zipWith_cons_cons, List.countP_cons]
      rw [ih xs hlen' hdis']
      have hznone : (if ((none : Option Nat) == some l) = true then 1 else 0) = 0 := rfl
      by_cases ha : a.isSome
      · rw [if_pos ha]
        have hx : x = none := by
          rcases hx : x with _ | v
          · rfl
          · have := hdis 0 (by rw [List.getD_cons_zero, hx]; rfl)
            rw [List.getD_cons_zero] at this
            rw [this] at ha
            cases ha
        rw [hx, hznone]
        omega
      · rw [if_neg ha]
        have hanone : a = none := by
          rcases hxa : a with _ | v
          · rfl
          · rw [hxa] at ha
            simp at ha
        rw [hanone, hznone]
        omega

end EvoSim

namespace EvoSim

variable {V β : Type}

theorem greedyLoop_succ [Inhabited V] [Inhabited β] (matcher : V → Post β → Bool)
    (query : List (Nat × Post β) → V → List Nat) (posts : List (Post β)) (fleet : List V)
    (nn maxiter fuel iteration : Nat) (occ : List Nat) (alloc : List (Option Nat)) :
    greedyLoop matcher query posts fleet nn maxiter (fuel + 1) iteration occ alloc =
      if iteration < maxiter then
        if workingVacancySum posts occ = 0 then alloc
        else if alloc.countP (fun a => a.isNone) = 0 then alloc
        else if ((greedyRound matcher query posts fleet nn occ alloc).countP
            fun a => a.isSome) = 0 then
          List.zipWith (fun a n => if a.isSome then a else n) alloc
            (greedyRound matcher query posts fleet nn occ alloc)
        else
          greedyLoop matcher query posts fleet nn maxiter fuel
            (iteration +
              max ((greedyRound matcher query posts fleet nn occ alloc).countP
                fun a => a.isSome) 1)
            ((enumFromN 0 occ).map fun lo =>
              lo.2 + (greedyRound matcher query posts fleet nn occ alloc).countP
                fun a => a == some lo.1)
            (List.zipWith (fun a n => if a.isSome then a else n) alloc
              (greedyRound matcher query posts fleet nn occ alloc))
      else alloc := rfl

theorem posts_ne_nil_of_vacancySum [Inhabited β] {posts : List (Post β)} {occ : List Nat}
    (h : workingVacancySum posts occ ≠ 0) : 0 < posts.length := by
  by_contra hc
  apply h
  have : posts.length = 0 := by omega
  unfold workingVacancySum
  rw [this]
  rfl

theorem greedyLoop_out [Inhabited V] [Inhabited β] (matcher : V → Post β → Bool)
    (query : List (Nat × Post β) → V → List Nat) (posts : List (Post β)) (fleet : List V)
    (nn maxiter : Nat) :
    ∀ (fuel iteration : Nat) (occ : List Nat) (alloc : List (Option Nat)),
      GInv posts fleet occ alloc →
      (greedyLoop matcher query posts fleet nn maxiter fuel iteration occ alloc).length =
          fleet.length ∧
        (∀ l, l < posts.length →
          ((greedyLoop matcher query posts fleet nn maxiter fuel iteration occ
              alloc).countP fun a => a == some l) +
            (posts.getD l default).occupancy ≤ (posts.getD l default).capacity) ∧
        (∀ i l, (greedyLoop matcher query posts fleet nn maxiter fuel iteration occ
            alloc).getD i none = some l → l < posts.length) := by
  intro fuel
  induction fuel with
  | zero =>
    intro iteration occ alloc hinv
    obtain ⟨h1, h2, h3, h4, h5⟩ := hinv
    rw [show greedyLoop matcher query posts fleet nn maxiter 0 iteration occ alloc =
      alloc from rfl]
    refine ⟨h2, ?_, h5⟩
    intro l hl
    have := h3 l hl
    have := h4 l hl
    omega
  | succ fuel ih =>
    intro iteration occ alloc hinv
    obtain ⟨h1, h2, h3, h4, h5⟩ := hinv
    have halloc : ∀ l, l < posts.length →
        (alloc.countP fun a => a == some l) + (posts.getD l default).occupancy ≤
          (posts.getD l default).capacity := by
      intro l hl
      have := h3 l hl
      have := h4 l hl
      omega
    rw [greedyLoop_succ]
    by_cases hit : iteration < maxiter
    case neg =>
      rw [if_neg hit]
      exact ⟨h2, halloc, h5⟩
    rw [if_pos hit]
    by_cases hvs : workingVacancySum posts occ = 0
    case pos =>
      rw [if_pos hvs]
      exact ⟨h2, halloc, h5⟩
    rw [if_neg hvs]
    by_cases hun : alloc.countP (fun a => a.isNone) = 0
    case pos =>
      rw [if_pos hun]
      exact ⟨h2, halloc, h5⟩
    rw [if_neg hun]
    have hpn : 0 < posts.length := posts_ne_nil_of_vacancySum hvs
    have hlen_newly : (greedyRound matcher query posts fleet nn occ alloc).length =
        fleet.length := length_greedyRound matcher query posts fleet nn occ alloc
    have hdis : ∀ i, ((greedyRound matcher query posts fleet nn occ alloc).getD i
        none).isSome → alloc.getD i none = none := by
      intro i hi
      rcases hx : (greedyRound matcher query posts fleet nn occ alloc).getD i none with _ | l
      · rw [hx] at hi
        cases hi
      · exact (greedyRound_some hx).2.1
    have hlen2 : alloc.length =
        (greedyRound matcher query posts fleet nn occ alloc).length := by
      rw [hlen_newly, h2]
    have hcomm := countP_zipWith_commit
    have hlen_alloc2 : (List.zipWith (fun a n => if a.isSome then a else n) alloc
        (greedyRound matcher query posts fleet nn occ alloc)).length = fleet.length := by
      rw [List.length_zipWith, hlen_newly, h2]
      simp
    have hval2 : ∀ i l, (List.zipWith (fun a n => if a.isSome then a else n) alloc
        (greedyRound matcher query posts fleet nn occ alloc)).getD i none = some l →
        l < posts.length := by
      intro i l hx
      rw [getD_zipWith_commit _ _ hlen2 i] at hx
      by_cases ha : (alloc.getD i none).isSome
      · rw [if_pos ha] at hx
        exact h5 i l hx
      · rw [if_neg ha] at hx
        exact greedyRound_some_lt hpn hx
    have hcnt2 : ∀ l, (List.zipWith (fun a n => if a.isSome then a else n) alloc
        (greedyRound matcher query posts fleet nn occ alloc)).countP (fun a => a == some l) =
        (alloc.countP fun a => a == some l) +
          ((greedyRound matcher query posts fleet nn occ alloc).countP
            fun a => a == some l) := by
      intro l
      exact countP_zipWith_commit l alloc _ hlen2 hdis
    by_cases hz : ((greedyRound matcher query posts fleet nn occ alloc).countP
        fun a => a.isSome) = 0
    case pos =>
      rw [if_pos hz]
      refine ⟨hlen_alloc2, ?_, hval2⟩
      intro l hl
      have hle : ((greedyRound matcher query posts fleet nn occ alloc).countP
          fun a => a == some l) ≤
          ((greedyRound matcher query posts fleet nn occ alloc).countP
            fun a => a.isSome) := by
        apply List.countP_mono_left
        intro x _ hx
        rcases x with _ | v
        · cases hx
        · rfl
      rw [hcnt2 l]
      have := halloc l hl
      omega
    rw [if_neg hz]
    apply ih
    refine ⟨?_, hlen_alloc2, ?_, ?_, hval2⟩
    · rw [List.length_map, length_enumFromN, h1]
    · intro l hl
      rw [getD_map_enumFromN _ _ occ 0 l (by omega)]
      simp only [Nat.zero_add]
      rw [show (default : Nat) = 0 from rfl]
      rw [hcnt2 l, h3 l hl]
      omega
    · intro l hl
      rw [getD_map_enumFromN _ _ occ 0 l (by omega)]
      simp only [Nat.zero_add]
      rw [show (default : Nat) = 0 from rfl]
      have hvac := countP_greedyRound matcher query posts fleet nn occ alloc l
      unfold workingVacancy at hvac
      have := h4 l hl
      omega

end EvoSim

namespace EvoSim

variable {V β : Type}

theorem greedyLoop_persistent [Inhabited V] [Inhabited β] (matcher : V → Post β → Bool)
    (query : List (Nat × Post β) → V → List Nat) (posts : List (Post β)) (fleet : List V)
    (nn maxiter : Nat) :
    ∀ (fuel iteration : Nat) (occ : List Nat) (alloc : List (Option Nat)),
      alloc.length = fleet.length →
      ∀ i l, alloc.getD i none = some l →
        (greedyLoop matcher query posts fleet nn maxiter fuel iteration occ
          alloc).getD i none = some l := by
  intro fuel
  induction fuel with
  | zero =>
    intro iteration occ alloc _ i l h
    exact h
  | succ fuel ih =>
    intro iteration occ alloc hlen i l h
    rw [greedyLoop_succ]
    have hlen2 : alloc.length =
        (greedyRound matcher query posts fleet nn occ alloc).length := by
      rw [length_greedyRound, hlen]
    have hcommit : (List.zipWith (fun a n => if a.isSome then a else n) alloc
        (greedyRound matcher query posts fleet nn occ alloc)).getD i none = some l := by
      rw [getD_zipWith_commit _ _ hlen2 i, h]
      rfl
    have hlen_alloc2 : (List.zipWith (fun a n => if a.isSome then a else n) alloc
        (greedyRound matcher query posts fleet nn occ alloc)).length = fleet.length := by
      rw [List.length_zipWith, ← hlen2, hlen]
      simp
    by_cases hit : iteration < maxiter
    case neg => rw [if_neg hit]; exact h
    rw [if_pos hit]
    by_cases hvs : workingVacancySum posts occ = 0
    case pos => rw [if_pos hvs]; exact h
    rw [if_neg hvs]
    by_cases hun : alloc.countP (fun a => a.isNone) = 0
    case pos => rw [if_pos hun]; exact h
    rw [if_neg hun]
    by_cases hz : ((greedyRound matcher query posts fleet nn occ alloc).countP
        fun a => a.isSome) = 0
    case pos =>
      rw [if_pos hz]
      exact hcommit
    rw [if_neg hz]
    exact ih _ _ _ hlen_alloc2 i l hcommit

theorem greedyLoop_compat [Inhabited V] [Inhabited β] {matcher : V → Post β → Bool}
    {query : List (Nat × Post β) → V → List Nat} (hocc : OccInsensitive matcher)
    (hq : QueryValid query) (posts : List (Post β)) (fleet : List V) (nn maxiter : Nat) :
    ∀ (fuel iteration : Nat) (occ : List Nat) (alloc : List (Option Nat)),
      alloc.length = fleet.length →
      (∀ i l, alloc.getD i none = some l →
        matcher (fleet.getD i default) (posts.getD l default) = true) →
      ∀ i l, (greedyLoop matcher query posts fleet nn maxiter fuel iteration occ
          alloc).getD i none = some l →
        matcher (fleet.getD i default) (posts.getD l default) = true := by
  intro fuel
  induction fuel with
  | zero =>
    intro iteration occ alloc _ hc i l h
    exact hc i l h
  | succ fuel ih =>
    intro iteration occ alloc hlen hc i l h
    rw [greedyLoop_succ] at h
    have hlen2 : alloc.length =
        (greedyRound matcher query posts fleet nn occ alloc).length := by
      rw [length_greedyRound, hlen]
    have hnew : ∀ i l, (greedyRound matcher query posts fleet nn occ alloc).getD i none =
        some l → matcher (fleet.getD i default) (posts.getD l default) = true := by
      intro i l hx
      obtain ⟨hi, -, hfm⟩ := greedyRound_some hx
      obtain ⟨j, hjc, hjm, hjl⟩ := firstMatchLabel_some hfm
      have hjq : j ∈ query (availPosts posts occ) (fleet.getD i default) :=
        List.mem_of_mem_take hjc
      have hjlt : j < (availPosts posts occ).length := hq _ _ j hjq
      have hmem := getD_mem (l := availPosts posts occ) (d := ((0 : Nat), default)) hjlt
      obtain ⟨hl1, -, hwork⟩ := mem_availPosts hmem
      rw [hjl] at hl1 hwork
      rw [hwork] at hjm
      unfold workingPost at hjm
      rwa [hocc (fleet.getD i default) (posts.getD l default) (occ.getD l 0)] at hjm
    have hcommit : ∀ i l, (List.zipWith (fun a n => if a.isSome then a else n) alloc
        (greedyRound matcher query posts fleet nn occ alloc)).getD i none = some l →
        matcher (fleet.getD i default) (posts.getD l default) = true := by
      intro i l hx
      rw [getD_zipWith_commit _ _ hlen2 i] at hx
      by_cases ha : (alloc.getD i none).isSome
      · rw [if_pos ha] at hx
        exact hc i l hx
      · rw [if_neg ha] at hx
        exact hnew i l hx
    have hlen_alloc2 : (List.zipWith (fun a n => if a.isSome then a else n) alloc
        (greedyRound matcher query posts fleet nn occ alloc)).length = fleet.length := by
      rw [List.length_zipWith, ← hlen2, hlen]
      simp
    by_cases hit : iteration < maxiter
    case neg => rw [if_neg hit] at h; exact hc i l h
    rw [if_pos hit] at h
    by_cases hvs : workingVacancySum posts occ = 0
    case pos => rw [if_pos hvs] at h; exact hc i l h
    rw [if_neg hvs] at h
    by_cases hun : alloc.countP (fun a => a.isNone) = 0
    case pos => rw [if_pos hun] at h; exact hc i l h
    rw [if_neg hun] at h
    by_cases hz : ((greedyRound matcher query posts fleet nn occ alloc).countP
        fun a => a.isSome) = 0
    case pos =>
      rw [if_pos hz] at h
      exact hcommit i l h
    rw [if_neg hz] at h
    exact ih _ _ _ hlen_alloc2 hcommit i l h

end EvoSim

namespace EvoSim

variable {ρ : Type}

theorem getD_map_of_lt {α γ : Type} [Inhabited α] (g : α → γ) (dflt : γ) :
    ∀ (l : List α) (i : Nat), i < l.length → (l.map g).getD i dflt = g (l.getD i default) := by
  intro l
  induction l with
  | nil => intro i h; cases h
  | cons a as ih =>
    intro i h
    cases i with
    | zero => rfl
    | succ i =>
      simp only [List.map_cons, List.getD_cons_succ]
      exact ih i (by simpa using h)

theorem getD_zipWith_bool (f : Bool → Bool → Bool) :
    ∀ (as bs : List Bool) (i : Nat), i < as.length → i < bs.length →
      (List.zipWith f as bs).getD i false = f (as.getD i false) (bs.getD i false) := by
  intro as
  induction as with
  | nil => intro bs i h; cases h
  | cons a as ih =>
    intro bs i ha hb
    cases bs with
    | nil => cases hb
    | cons b bs =>
      cases i with
      | zero => rfl
      | succ i =>
        simp only [List.zipWith_cons_cons, List.getD_cons_succ]
        exact ih bs i (by simpa using ha) (by simpa using hb)

theorem zipWith_and_getD_imp :
    ∀ (as bs : List Bool) (i : Nat),
      (List.zipWith (fun a b => a && b) as bs).getD i false = true →
      as.getD i false = true ∧ bs.getD i false = true := by
  intro as
  induction as with
  | nil => intro bs i h; cases h
  | cons a as ih =>
    intro bs i h
    cases bs with
    | nil => cases h
    | cons b bs =>
      cases i with
      | zero =>
        simp only [List.zipWith_cons_cons, List.getD_cons_zero] at h ⊢
        exact Bool.and_eq_true_iff.mp h
      | succ i =>
        simp only [List.zipWith_cons_cons, List.getD_cons_succ] at h ⊢
        exact ih bs i h

theorem zipWith_notand_getD_imp :
    ∀ (as bs : List Bool) (i : Nat),
      (List.zipWith (fun a b => !a && b) as bs).getD i false = true →
      bs.getD i false = true := by
  intro as
  induction as with
  | nil => intro bs i h; cases h
  | cons a as ih =>
    intro bs i h
    cases bs with
    | nil => cases h
    | cons b bs =>
      cases i with
      | zero =>
        simp only [List.zipWith_cons_cons, List.getD_cons_zero] at h ⊢
        exact (Bool.and_eq_true_iff.mp h).2
      | succ i =>
        simp only [List.zipWith_cons_cons, List.getD_cons_succ] at h ⊢
        exact ih bs i h

theorem count_true_le_of_pointwise :
    ∀ (as bs : List Bool), as.length = bs.length →
      (∀ i, i < as.length → bs.getD i false = true → as.getD i false = true) →
      bs.count true ≤ as.count true := by
  intro as
  induction as with
  | nil =>
    intro bs h _
    have : bs = [] := by
      cases bs
      · rfl
      · cases h
    rw [this]
  | cons a as ih =>
    intro bs hlen hpt
    cases bs with
    | nil => cases hlen
    | cons b bs =>
      have h0 := hpt 0 (by simp)
      have hrest := ih bs (by simpa using hlen) fun i hi hb =>
        hpt (i + 1) (by simpa using hi) (by simpa using hb)
      rw [List.count_cons, List.count_cons]
      cases b
      · cases a <;> simp <;> omega
      · have ha : a = true := h0 rfl
        rw [ha]
        simp
        omega

theorem count_true_lt_of_pointwise :
    ∀ (as bs : List Bool), as.length = bs.length →
      (∀ i, i < as.length → bs.getD i false = true → as.getD i false = true) →
      ∀ j, j < as.length → as.getD j false = true → bs.getD j false = false →
      bs.count true < as.count true := by
  intro as
  induction as with
  | nil => intro bs _ _ j hj; cases hj
  | cons a as ih =>
    intro bs hlen hpt j hj ha hb
    cases bs with
    | nil => cases hlen
    | cons b bs =>
      have hrest_le := count_true_le_of_pointwise as bs (by simpa using hlen)
        fun i hi hbi => hpt (i + 1) (by simpa using hi) (by simpa using hbi)
      rw [List.count_cons, List.count_cons]
      cases j with
      | zero =>
        simp only [List.getD_cons_zero] at ha hb
        rw [ha, hb]
        simp
        omega
      | succ j =>
        simp only [List.getD_cons_succ] at ha hb
        have hlt := ih bs (by simpa using hlen)
          (fun i hi hbi => hpt (i + 1) (by simpa using hi) (by simpa using hbi))
          j (by simpa using hj) ha hb
        have h0 := hpt 0 (by simp)
        cases b
        · simp
          omega
        · have : a = true := h0 rfl
          rw [this]
          simp
          omega

theorem count_true_zero_iff (vis : List Bool) :
    vis.count true = 0 ↔ vis.any (fun b => b) = false := by
  rw [List.count_eq_zero, List.any_eq_false]
  constructor
  · intro h x hx
    intro hxt
    apply h
    rw [hxt] at hx
    exact hx
  · intro h hmem
    exact h true hmem rfl

end EvoSim

namespace EvoSim

variable {ρ : Type}

theorem classifyStep_vis [Inhabited ρ] (m : ρ → ρ → Bool) (data : List ρ) (revisit : Bool)
    (vis : List Bool) :
    (classifyStep m data revisit vis).2 =
      List.zipWith (fun a b => !a && b)
        (data.map fun r => m r (data.getD (vis.findIdx fun b => b) default)) vis := rfl

theorem classifyStep_class_false [Inhabited ρ] (m : ρ → ρ → Bool) (data : List ρ)
    (vis : List Bool) :
    (classifyStep m data false vis).1 =
      ⟨List.zipWith (fun a b => a && b)
          (data.map fun r => m r (data.getD (vis.findIdx fun b => b) default)) vis,
        vis.findIdx fun b => b⟩ := rfl

theorem classifyStep_class_true [Inhabited ρ] (m : ρ → ρ → Bool) (data : List ρ)
    (vis : List Bool) :
    (classifyStep m data true vis).1 =
      ⟨data.map fun r => m r (data.getD (vis.findIdx fun b => b) default),
        vis.findIdx fun b => b⟩ := rfl

theorem classifyAux_succ_pos [Inhabited ρ] {m : ρ → ρ → Bool} {data : List ρ}
    {revisit : Bool} {fuel : Nat} {vis : List Bool}
    (hany : vis.any (fun b => b) = true) :
    classifyAux m data revisit (fuel + 1) vis =
      ((classifyStep m data revisit vis).1 ::
          (classifyAux m data revisit fuel (classifyStep m data revisit vis).2).1,
        (classifyAux m data revisit fuel (classifyStep m data revisit vis).2).2) := by
  simp only [classifyAux, hany, if_pos]

theorem classifyAux_succ_neg [Inhabited ρ] {m : ρ → ρ → Bool} {data : List ρ}
    {revisit : Bool} {fuel : Nat} {vis : List Bool}
    (hany : vis.any (fun b => b) = false) :
    classifyAux m data revisit (fuel + 1) vis = ([], vis) := by
  simp only [classifyAux, hany]
  rfl

theorem classifyStep_vis_length [Inhabited ρ] (m : ρ → ρ → Bool) (data : List ρ)
    (revisit : Bool) (vis : List Bool) (h : vis.length = data.length) :
    (classifyStep m data revisit vis).2.length = data.length := by
  rw [classifyStep_vis, List.length_zipWith, List.length_map, h]
  simp

theorem classifyStep_vis_getD [Inhabited ρ] (m : ρ → ρ → Bool) (data : List ρ)
    (revisit : Bool) (vis : List Bool) (h : vis.length = data.length) {i : Nat}
    (hi : i < data.length) :
    (classifyStep m data revisit vis).2.getD i false =
      (!(m (data.getD i default)
          (data.getD (vis.findIdx fun b => b) default)) && vis.getD i false) := by
  rw [classifyStep_vis]
  rw [getD_zipWith_bool _ _ _ i (by rw [List.length_map]; exact hi) (by omega)]
  rw [getD_map_of_lt _ _ data i hi]

theorem findIdx_lt_of_any {vis : List Bool} (h : vis.any (fun b => b) = true) :
    (vis.findIdx fun b => b) < vis.length := by
  apply List.findIdx_lt_length_of_exists
  exact List.any_eq_true.mp h

theorem getD_findIdx_true {vis : List Bool} (h : vis.any (fun b => b) = true) :
    vis.getD (vis.findIdx fun b => b) false = true := by
  have hlt := findIdx_lt_of_any h
  rw [List.getD_eq_getElem?_getD, List.getElem?_eq_getElem hlt]
  simpa using List.findIdx_getElem (w := hlt)

end EvoSim

namespace EvoSim

variable {ρ : Type}

theorem ite_beq_toNat (b : Bool) : (if b = true then 1 else 0) = b.toNat := by
  cases b <;> rfl

theorem classifyAux_master [Inhabited ρ] (m : ρ → ρ → Bool) (data : List ρ) :
    ∀ (fuel : Nat) (vis : List Bool), vis.length = data.length →
      (classifyAux m data false fuel vis).2.length = data.length ∧
      (∀ i, i < data.length →
        (classifyAux m data false fuel vis).2.getD i false = true →
        vis.getD i false = true) ∧
      (∀ i, i < data.length →
        ((classifyAux m data false fuel vis).1.countP fun c => c.mask.getD i false) =
          (vis.getD i false && !((classifyAux m data false fuel vis).2.getD i false)).toNat) ∧
      (∀ c ∈ (classifyAux m data false fuel vis).1,
        c.mask.length = data.length ∧ c.template < data.length ∧
          ∀ i, i < data.length → c.mask.getD i false = true →
            m (data.getD i default) (data.getD c.template default) = true ∧
              vis.getD i false = true) := by
  intro fuel
  induction fuel with
  | zero =>
    intro vis h
    refine ⟨h, fun i _ hx => hx, ?_, ?_⟩
    · intro i hi
      have hz : ((classifyAux m data false 0 vis).1.countP
          fun c => c.mask.getD i false) = 0 := rfl
      have hv2 : (classifyAux m data false 0 vis).2 = vis := rfl
      rw [hz, hv2, Bool.and_not_self]
      rfl
    · intro c hc
      cases hc
  | succ fuel ih =>
    intro vis h
    by_cases hany : vis.any (fun b => b) = true
    case neg =>
      have hany' : vis.any (fun b => b) = false := by
        rcases hx : vis.any (fun b => b) with _ | _
        · rfl
        · exact absurd hx hany
      rw [classifyAux_succ_neg hany']
      refine ⟨h, fun i _ hx => hx, ?_, ?_⟩
      · intro i hi
        have hz : ((([] : List ClassMask), vis).1.countP
            fun c => c.mask.getD i false) = 0 := rfl
        have hv2 : ((([] : List ClassMask), vis)).2 = vis := rfl
        rw [hz, hv2, Bool.and_not_self]
        rfl
      · intro c hc
        cases hc
    case pos =>
      rw [classifyAux_succ_pos hany]
      have hlen' : (classifyStep m data false vis).2.length = data.length :=
        classifyStep_vis_length m data false vis h
      obtain ⟨ih1, ih2, ih3, ih4⟩ := ih (classifyStep m data false vis).2 hlen'
      have hidx : (vis.findIdx fun b => b) < data.length := by
        have := findIdx_lt_of_any hany
        omega
      refine ⟨ih1, ?_, ?_, ?_⟩
      · intro i hi hx
        have hv' := ih2 i hi hx
        rw [classifyStep_vis_getD m data false vis h hi] at hv'
        exact (Bool.and_eq_true_iff.mp hv').2
      · intro i hi
        simp only [List.countP_cons]
        have hmask : (classifyStep m data false vis).1.mask.getD i false =
            (m (data.getD i default)
              (data.getD (vis.findIdx fun b => b) default) && vis.getD i false) := by
          rw [classifyStep_class_false]
          simp only []
          rw [getD_zipWith_bool _ _ _ i (by rw [List.length_map]; exact hi) (by omega)]
          rw [getD_map_of_lt _ _ data i hi]
        have hstep := classifyStep_vis_getD m data false vis h hi
        have hcnt := ih3 i hi
        have himp := ih2 i hi
        rw [ite_beq_toNat, hmask, hcnt, hstep]
        cases hM : m (data.getD i default) (data.getD (vis.findIdx fun b => b) default) <;>
          cases hV : vis.getD i false
        · rfl
        · rfl
        · rfl
        · have hstep2 : (classifyStep m data false vis).2.getD i false = false := by
            rw [hstep, hM, hV]
            rfl
          have hF : (classifyAux m data false fuel
              (classifyStep m data false vis).2).2.getD i false = false := by
            rcases hF' : (classifyAux m data false fuel
                (classifyStep m data false vis).2).2.getD i false with _ | _
            · rfl
            · have := himp hF'
              rw [hstep2] at this
              cases this
          rw [hF]
          rfl
      · intro c hc
        rcases List.mem_cons.mp hc with hc | hc
        · subst hc
          refine ⟨?_, ?_, ?_⟩
          · rw [classifyStep_class_false]
            simp only []
            rw [List.length_zipWith, List.length_map, h]
            simp
          · rw [classifyStep_class_false]
            exact hidx
          · intro i hi hx
            rw [classifyStep_class_false] at hx
            simp only [] at hx
            have := zipWith_and_getD_imp _ _ i hx
            obtain ⟨h1, h2⟩ := this
            rw [getD_map_of_lt _ _ data i hi] at h1
            rw [classifyStep_class_false]
            exact ⟨h1, h2⟩
        · obtain ⟨hml, hmt, hmm⟩ := ih4 c hc
          refine ⟨hml, hmt, ?_⟩
          intro i hi hx
          obtain ⟨h1, h2⟩ := hmm i hi hx
          rw [classifyStep_vis_getD m data false vis h hi] at h2
          exact ⟨h1, (Bool.and_eq_true_iff.mp h2).2⟩
end EvoSim

namespace EvoSim

variable {ρ : Type}

theorem classifyAux_term [Inhabited ρ] {m : ρ → ρ → Bool} {data : List ρ}
    (hRefl : ∀ i, i < data.length →
      m (data.getD i default) (data.getD i default) = true) :
    ∀ (fuel : Nat) (vis : List Bool), vis.length = data.length →
      vis.count true ≤ fuel →
      (classifyAux m data false fuel vis).2.any (fun b => b) = false := by
  intro fuel
  induction fuel with
  | zero =>
    intro vis h hc
    have : vis.count true = 0 := by omega
    exact (count_true_zero_iff vis).mp this
  | succ fuel ih =>
    intro vis h hc
    by_cases hany : vis.any (fun b => b) = true
    case neg =>
      have hany' : vis.any (fun b => b) = false := by
        rcases hx : vis.any (fun b => b) with _ | _
        · rfl
        · exact absurd hx hany
      rw [classifyAux_succ_neg hany']
      exact hany'
    case pos =>
      rw [classifyAux_succ_pos hany]
      simp only []
      have hlen' : (classifyStep m data false vis).2.length = data.length :=
        classifyStep_vis_length m data false vis h
      have hidx : (vis.findIdx fun b => b) < data.length := by
        have := findIdx_lt_of_any hany
        omega
      have hpt : ∀ i, i < vis.length →
          (classifyStep m data false vis).2.getD i false = true →
          vis.getD i false = true := by
        intro i hiv hx
        rw [classifyStep_vis_getD m data false vis h (by omega)] at hx
        exact (Bool.and_eq_true_iff.mp hx).2
      have hstrict : (classifyStep m data false vis).2.count true < vis.count true := by
        apply count_true_lt_of_pointwise vis ((classifyStep m data false vis).2)
          (by omega) hpt (vis.findIdx fun b => b) (by omega)
        · exact getD_findIdx_true hany
        · rw [classifyStep_vis_getD m data false vis h hidx]
          rw [hRefl (vis.findIdx fun b => b) hidx]
          rfl
      exact ih (classifyStep m data false vis).2 hlen' (by omega)

theorem classifyAux_const_false [Inhabited ρ] (data : List ρ) :
    ∀ (fuel : Nat) (vis : List Bool), vis.length = data.length →
      (classifyAux (fun _ _ => (false : Bool)) data false fuel vis).2 = vis := by
  intro fuel
  induction fuel with
  | zero => intro vis _; rfl
  | succ fuel ih =>
    intro vis h
    by_cases hany : vis.any (fun b => b) = true
    case neg =>
      have hany' : vis.any (fun b => b) = false := by
        rcases hx : vis.any (fun b => b) with _ | _
        · rfl
        · exact absurd hx hany
      rw [classifyAux_succ_neg hany']
    case pos =>
      rw [classifyAux_succ_pos hany]
      simp only []
      have hvis : (classifyStep (fun _ _ => (false : Bool)) data false vis).2 = vis := by
        rw [classifyStep_vis]
        have : ∀ (d : List ρ) (v : List Bool), v.length = d.length →
            List.zipWith (fun a b => !a && b)
              (d.map fun _ => (false : Bool)) v = v := by
          intro d
          induction d with
          | nil =>
            intro v hv
            have : v = [] := by
              cases v
              · rfl
              · cases hv
            rw [this]
            rfl
          | cons x xs ihd =>
            intro v hv
            cases v with
            | nil => cases hv
            | cons b bs =>
              simp only [List.map_cons, List.zipWith_cons_cons]
              rw [ihd bs (by simpa using hv)]
              cases b <;> rfl
        exact this data vis h
      rw [hvis]
      exact ih vis h

theorem classifyAux_monotone [Inhabited ρ] (m : ρ → ρ → Bool) (data : List ρ) :
    ∀ (fuel : Nat) (vis : List Bool),
      (classifyAux m data true fuel vis).2 = (classifyAux m data false fuel vis).2 ∧
      List.Forall₂ (fun cT cF => cT.template = cF.template ∧
          ∀ i, cF.mask.getD i false = true → cT.mask.getD i false = true)
        (classifyAux m data true fuel vis).1 (classifyAux m data false fuel vis).1 := by
  intro fuel
  induction fuel with
  | zero =>
    intro vis
    exact ⟨rfl, List.Forall₂.nil⟩
  | succ fuel ih =>
    intro vis
    by_cases hany : vis.any (fun b => b) = true
    case neg =>
      have hany' : vis.any (fun b => b) = false := by
        rcases hx : vis.any (fun b => b) with _ | _
        · rfl
        · exact absurd hx hany
      rw [classifyAux_succ_neg hany', classifyAux_succ_neg hany']
      exact ⟨rfl, List.Forall₂.nil⟩
    case pos =>
      rw [classifyAux_succ_pos hany, classifyAux_succ_pos hany]
      have hvis : (classifyStep m data true vis).2 = (classifyStep m data false vis).2 := rfl
      obtain ⟨ihv, ihf⟩ := ih (classifyStep m data false vis).2
      constructor
      · simp only [hvis]
        exact ihv
      · simp only [hvis]
        refine List.Forall₂.cons ?_ ihf
        constructor
        · rw [classifyStep_class_true, classifyStep_class_false]
        · intro i hx
          rw [classifyStep_class_true]
          rw [classifyStep_class_false] at hx
          simp only [] at hx ⊢
          exact (zipWith_and_getD_imp _ _ i hx).1

end EvoSim

namespace EvoSim

variable {V β : Type}

theorem identRng_valid : identRng.Valid :=
  ⟨fun _ _ => List.Perm.refl _, fun _ _ => List.Perm.refl _⟩

theorem trueMatcher_occIns : OccInsensitive trueMatcher :=
  fun _ _ _ => rfl

theorem rangeQuery_valid : QueryValid rangeQuery := by
  intro ps v j hj
  simpa [rangeQuery] using hj

theorem label_lt_of_mem_fst_indexPosts {posts : List (Post β)} {l : Nat}
    (h : l ∈ (indexPosts posts).map Prod.fst) : l < posts.length := by
  rw [indexPosts, map_fst_enumFromN] at h
  have := List.mem_range'_1.mp h
  omega

theorem wf_indexPosts [Inhabited β] {posts : List (Post β)}
    (hwf : ∀ p ∈ posts, p.occupancy ≤ p.capacity) :
    ∀ e ∈ indexPosts posts, e.2.occupancy ≤ e.2.capacity := by
  intro e he
  obtain ⟨-, h2, h3⟩ := mem_enumFromN (l := posts) (by simpa [indexPosts] using he)
  have hmem : e.2 ∈ posts := by
    rw [show e.2 = posts.getD (e.1 - 0) default from h3.symm]
    exact getD_mem h2
  exact hwf e.2 hmem

theorem mem_exists_getD {α : Type} (d : α) :
    ∀ {l : List α} {x : α}, x ∈ l → ∃ i, i < l.length ∧ l.getD i d = x := by
  intro l
  induction l with
  | nil => intro x h; cases h
  | cons a as ih =>
    intro x h
    rw [List.mem_cons] at h
    rcases h with h | h
    · exact ⟨0, by simp, by simp [h.symm]⟩
    · obtain ⟨i, hi, hg⟩ := ih h
      refine ⟨i + 1, by simpa using hi, ?_⟩
      rw [List.getD_cons_succ]
      exact hg

theorem getD_replicate_none (n i : Nat) :
    (List.replicate n (none : Option Nat)).getD i none = none := by
  induction n generalizing i with
  | zero => rfl
  | succ n ih =>
    cases i with
    | zero => rfl
    | succ i =>
      rw [List.replicate_succ, List.getD_cons_succ]
      exact ih i

theorem getD_replicate_true {n i : Nat} (h : i < n) :
    (List.replicate n true).getD i false = true := by
  induction n generalizing i with
  | zero => omega
  | succ n ih =>
    cases i with
    | zero => rfl
    | succ i =>
      rw [List.replicate_succ, List.getD_cons_succ]
      exact ih (by omega)

theorem countP_replicate_none (n l : Nat) :
    ((List.replicate n (none : Option Nat)).countP fun a => a == some l) = 0 := by
  induction n with
  | zero => rfl
  | succ n ih =>
    rw [List.replicate_succ, List.countP_cons]
    simp [ih]

theorem pairwise_disjoint_of_countP_le_one :
    ∀ (cs : List ClassMask),
      (∀ i : Nat, (cs.countP fun c => c.mask.getD i false) ≤ 1) →
      cs.Pairwise fun c d =>
        ∀ i, ¬(c.mask.getD i false = true ∧ d.mask.getD i false = true) := by
  intro cs
  induction cs with
  | nil => intro _; exact List.Pairwise.nil
  | cons a cs ih =>
    intro h
    constructor
    · intro b hb i hi
      obtain ⟨ha, hbt⟩ := hi
      have h1 : 0 < cs.countP fun c => c.mask.getD i false :=
        List.countP_pos_iff.mpr ⟨b, hb, hbt⟩
      have h2 := h i
      rw [List.countP_cons] at h2
      split at h2
      · omega
      · rename_i hfa
        exact absurd ha hfa
    · apply ih
      intro i
      have h2 := h i
      rw [List.countP_cons] at h2
      split at h2 <;> omega

theorem visF_getD_false {visF : List Bool} (hterm : visF.any (fun b => b) = false)
    {i : Nat} (hi : i < visF.length) : visF.getD i false = false := by
  cases hb : visF.getD i false with
  | false => rfl
  | true =>
    exfalso
    have hmem := getD_mem (l := visF) (d := false) hi
    rw [hb] at hmem
    have := List.any_eq_false.mp hterm _ hmem
    simp at this

end EvoSim

namespace EvoSim

variable {V β : Type}

theorem greedyLoop_length [Inhabited V] [Inhabited β] (matcher : V → Post β → Bool)
    (query : List (Nat × Post β) → V → List Nat) (posts : List (Post β)) (fleet : List V)
    (nn maxiter : Nat) :
    ∀ (fuel iteration : Nat) (occ : List Nat) (alloc : List (Option Nat)),
      alloc.length = fleet.length →
      (greedyLoop matcher query posts fleet nn maxiter fuel iteration occ alloc).length =
        fleet.length := by
  intro fuel
  induction fuel with
  | zero =>
    intro iteration occ alloc hlen
    exact hlen
  | succ fuel ih =>
    intro iteration occ alloc hlen
    rw [greedyLoop_succ]
    have hlen_alloc2 : (List.zipWith (fun a n => if a.isSome then a else n) alloc
        (greedyRound matcher query posts fleet nn occ alloc)).length = fleet.length := by
      rw [List.length_zipWith, length_greedyRound, hlen]
      simp
    by_cases hit : iteration < maxiter
    case neg => rw [if_neg hit]; exact hlen
    rw [if_pos hit]
    by_cases hvs : workingVacancySum posts occ = 0
    case pos => rw [if_pos hvs]; exact hlen
    rw [if_neg hvs]
    by_cases hun : alloc.countP (fun a => a.isNone) = 0
    case pos => rw [if_pos hun]; exact hlen
    rw [if_neg hun]
    by_cases hz : ((greedyRound matcher query posts fleet nn occ alloc).countP
        fun a => a.isSome) = 0
    case pos => rw [if_pos hz]; exact hlen_alloc2
    rw [if_neg hz]
    exact ih _ _ _ hlen_alloc2

theorem greedyLoop_valid [Inhabited V] [Inhabited β] (matcher : V → Post β → Bool)
    (query : List (Nat × Post β) → V → List Nat) (posts : List (Post β)) (fleet : List V)
    (nn maxiter : Nat) :
    ∀ (fuel iteration : Nat) (occ : List Nat) (alloc : List (Option Nat)),
      alloc.length = fleet.length →
      (∀ i l, alloc.getD i none = some l → l < posts.length) →
      ∀ i l, (greedyLoop matcher query posts fleet nn maxiter fuel iteration occ
        alloc).getD i none = some l → l < posts.length := by
  intro fuel
  induction fuel with
  | zero =>
    intro iteration occ alloc _ hval i l h
    exact hval i l h
  | succ fuel ih =>
    intro iteration occ alloc hlen hval i l
    rw [greedyLoop_succ]
    have hlen2 : alloc.length =
        (greedyRound matcher query posts fleet nn occ alloc).length := by
      rw [length_greedyRound, hlen]
    have hlen_alloc2 : (List.zipWith (fun a n => if a.isSome then a else n) alloc
        (greedyRound matcher query posts fleet nn occ alloc)).length = fleet.length := by
      rw [List.length_zipWith, ← hlen2, hlen]
      simp
    by_cases hit : iteration < maxiter
    case neg => rw [if_neg hit]; exact hval i l
    rw [if_pos hit]
    by_cases hvs : workingVacancySum posts occ = 0
    case pos => rw [if_pos hvs]; exact hval i l
    rw [if_neg hvs]
    have hpos : 0 < posts.length := posts_ne_nil_of_vacancySum hvs
    have hval2 : ∀ i l, (List.zipWith (fun a n => if a.isSome then a else n) alloc
        (greedyRound matcher query posts fleet nn occ alloc)).getD i none = some l →
        l < posts.length := by
      intro i l h
      rw [getD_zipWith_commit _ _ hlen2 i] at h
      by_cases hs : (alloc.getD i none).isSome
      · rw [if_pos hs] at h
        exact hval i l h
      · rw [if_neg hs] at h
        exact greedyRound_some_lt hpos h
    by_cases hun : alloc.countP (fun a => a.isNone) = 0
    case pos => rw [if_pos hun]; exact hval i l
    rw [if_neg hun]
    by_cases hz : ((greedyRound matcher query posts fleet nn occ alloc).countP
        fun a => a.isSome) = 0
    case pos => rw [if_pos hz]; exact hval2 i l
    rw [if_neg hz]
    exact ih _ _ _ hlen_alloc2 hval2 i l

end EvoSim

namespace EvoSim

/-- C7 (counterexample): with the all-false matcher — which is not reflexive,
`matcher(row, row) = False` — no row is ever marked visited, so the
`while visitless.any()` loop of `classify` never reaches the all-visited
state: no amount of fuel clears the mask on the one-row table `[0]`. -/
theorem classify_termination_counterexample :
    ¬ ClassifyTerminates falseRowMatcher [(0 : Nat)] := by
  rintro ⟨fuel, hf⟩
  have hconst := classifyAux_const_false [(0 : Nat)] fuel [true] rfl
  have heq : classify falseRowMatcher [(0 : Nat)] false fuel =
      classifyAux (fun _ _ => (false : Bool)) [(0 : Nat)] false fuel [true] := rfl
  rw [heq, hconst] at hf
  simp at hf

/-- C7: for every matcher that is reflexive on the table's rows
(`matcher(row, row)` holds, as for all the repository's equivalence-style
matchers), `classify` terminates: `data.length` passes of the loop reach the
state where every row has been visited, after which no further class is
yielded.  Reflexivity is necessary: see `classify_termination_counterexample`. -/
theorem classify_terminates_of_refl {ρ : Type} [Inhabited ρ] {m : ρ → ρ → Bool}
    {data : List ρ}
    (hRefl : ∀ i, i < data.length →
      m (data.getD i default) (data.getD i default) = true) :
    (classify m data false data.length).2.any (fun b => b) = false ∧
      ClassifyTerminates m data := by
  have h := classifyAux_term hRefl data.length (List.replicate data.length true)
    (by simp) (by simp)
  exact ⟨h, ⟨data.length, h⟩⟩

/-- Witness for C7's theorem at the table `[0, 1, 1]` with row equality as the
matcher. -/
theorem classify_terminates_witness :
    (classify eqRowMatcher [0, 1, 1] false 3).2.any (fun b => b) = false ∧
      ClassifyTerminates eqRowMatcher [0, 1, 1] :=
  classify_terminates_of_refl (by decide)

/-- C6 (counterexample): with the all-false matcher the non-overlap run never
terminates and no row is ever covered by a class, so the partition law fails
on the table `[0, 1]`. -/
theorem classify_partition_counterexample :
    ¬ ClassifyPartitionLaw falseRowMatcher [(0 : Nat), 1] := by
  rintro ⟨fuel, hterm, -, -, -⟩
  have hconst := classifyAux_const_false [(0 : Nat), 1] fuel [true, true] rfl
  have heq : classify falseRowMatcher [(0 : Nat), 1] false fuel =
      classifyAux (fun _ _ => (false : Bool)) [(0 : Nat), 1] false fuel [true, true] := rfl
  rw [heq, hconst] at hterm
  simp at hterm

/-- C6: for every matcher that is reflexive on the table's rows, non-overlap
classification satisfies the partition law: the run terminates, the yielded
classes are pairwise disjoint, every row belongs to exactly one class (so
concatenating the classes reconstructs the table up to row order), and every
member row matches its class's template row.  Reflexivity is necessary: see
`classify_partition_counterexample`. -/
theorem classify_partition_of_refl {ρ : Type} [Inhabited ρ] {m : ρ → ρ → Bool}
    {data : List ρ}
    (hRefl : ∀ i, i < data.length →
      m (data.getD i default) (data.getD i default) = true) :
    ClassifyPartitionLaw m data := by
  have hlen : (List.replicate data.length true).length = data.length := by simp
  obtain ⟨M1, M2, M3, M4⟩ := classifyAux_master m data data.length
    (List.replicate data.length true) hlen
  have hterm : (classifyAux m data false data.length
      (List.replicate data.length true)).2.any (fun b => b) = false :=
    classifyAux_term hRefl data.length (List.replicate data.length true) hlen (by simp)
  have hcl : classify m data false data.length =
      classifyAux m data false data.length (List.replicate data.length true) := rfl
  have hvisF : ∀ i, i < data.length →
      (classifyAux m data false data.length
        (List.replicate data.length true)).2.getD i false = false := by
    intro i hi
    exact visF_getD_false hterm (by rw [M1]; exact hi)
  refine ⟨data.length, ?_, ?_, ?_, ?_⟩
  · rw [hcl]
    exact hterm
  · rw [hcl]
    apply pairwise_disjoint_of_countP_le_one
    intro i
    by_cases hi : i < data.length
    · rw [M3 i hi]
      exact Bool.toNat_le _
    · have h0 : ((classifyAux m data false data.length
          (List.replicate data.length true)).1.countP
            fun c => c.mask.getD i false) = 0 := by
        rw [List.countP_eq_zero]
        intro c hc
        show ¬(c.mask.getD i false = true)
        rw [getD_out_of_range c.mask false (by rw [(M4 c hc).1]; omega)]
        simp
      omega
  · rw [hcl]
    intro i hi
    rw [M3 i hi, getD_replicate_true hi, hvisF i hi]
    rfl
  · rw [hcl]
    intro c hc i hi hm
    exact ((M4 c hc).2.2 i hi hm).1

/-- Witness for C6's theorem at the table `[0, 1]` with row equality as the
matcher. -/
theorem classify_partition_witness : ClassifyPartitionLaw eqRowMatcher [0, 1] :=
  classify_partition_of_refl (by decide)

/-- C8: for every table, matcher and fuel, the overlapping-mode
(`revisit=True`) and disjoint-mode (`revisit=False`) runs of `classify` yield
class sequences of the same length, leave the same visitless mask, have
pairwise identical templates, and each overlapping-mode class's membership
mask is a superset of the disjoint-mode class's at the same position. -/
theorem classify_revisit_monotone {ρ : Type} [Inhabited ρ] (m : ρ → ρ → Bool)
    (data : List ρ) (fuel : Nat) :
    (classify m data true fuel).1.length = (classify m data false fuel).1.length ∧
      (classify m data true fuel).2 = (classify m data false fuel).2 ∧
      List.Forall₂ (fun cT cF => cT.template = cF.template ∧
          ∀ i, cF.mask.getD i false = true → cT.mask.getD i false = true)
        (classify m data true fuel).1 (classify m data false fuel).1 := by
  obtain ⟨h2, hF⟩ := classifyAux_monotone m data fuel (List.replicate data.length true)
  exact ⟨hF.length_eq, h2, hF⟩

end EvoSim

namespace EvoSim

variable {V β : Type}

/-- C10: within one run of `greedy_allocator`'s loop, a committed allocation
is never revoked or changed: the allocation series is only ever updated where
it is currently null (`allocation.where(allocation.notna(), newly_allocated)`),
so the loop's final allocation extends the committed assignments of every
earlier round, whatever the round state `(fuel, iteration, occ)`. -/
theorem greedy_allocation_never_revoked [Inhabited V] [Inhabited β]
    (matcher : V → Post β → Bool) (query : List (Nat × Post β) → V → List Nat)
    (posts : List (Post β)) (fleet : List V) (nn maxiter fuel iteration : Nat)
    (occ : List Nat) (alloc : List (Option Nat)) (hlen : alloc.length = fleet.length)
    (i l : Nat) (h : alloc.getD i none = some l) :
    (greedyLoop matcher query posts fleet nn maxiter fuel iteration occ alloc).getD i
      none = some l :=
  greedyLoop_persistent matcher query posts fleet nn maxiter fuel iteration occ alloc
    hlen i l h

/-- Witness for C10's theorem: a single committed vehicle stays committed. -/
theorem greedy_allocation_never_revoked_witness :
    (greedyLoop trueMatcher rangeQuery [post21] [5] 1 3 3 0 [1] [some 0]).getD 0 none =
      some 0 :=
  greedy_allocation_never_revoked trueMatcher rangeQuery [post21] [5] 1 3 3 0 [1]
    [some 0] (by decide) 0 0 (by decide)

/-- C3: in one round of the greedy allocator, (a) a vehicle is newly assigned
only if it was unassigned and the assigned post is its first matching
candidate by distance rank among its `k` nearest available posts, and (b) a
vehicle keeps post `l` exactly when it proposed `l` and fewer earlier
fleet-table rows proposed `l` than `l` has remaining vacancy: table-order
precedence keeps the earliest rows, the excess is voided back to null. -/
theorem greedy_round_nearest_and_precedence [Inhabited V] [Inhabited β]
    (matcher : V → Post β → Bool) (query : List (Nat × Post β) → V → List Nat)
    (posts : List (Post β)) (fleet : List V) (nn : Nat) (occ : List Nat)
    (alloc : List (Option Nat)) (i l : Nat) :
    ((greedyRound matcher query posts fleet nn occ alloc).getD i none = some l →
      alloc.getD i none = none ∧
      firstMatchLabel matcher (availPosts posts occ)
        ((query (availPosts posts occ) (fleet.getD i default)).take
          (min nn (availPosts posts occ).length)) (fleet.getD i default) = some l) ∧
    ((greedyRound matcher query posts fleet nn occ alloc).getD i none = some l ↔
      (proposals matcher query (availPosts posts occ)
          (min nn (availPosts posts occ).length) fleet alloc).getD i none = some l ∧
      (((proposals matcher query (availPosts posts occ)
            (min nn (availPosts posts occ).length) fleet alloc).take i).countP
        fun a => a == some l) < workingVacancy posts occ l) := by
  constructor
  · intro h
    obtain ⟨-, h2, h3⟩ := greedyRound_some h
    exact ⟨h2, h3⟩
  · exact getD_greedyRound matcher query posts fleet nn occ alloc i l

/-- Witness for C3's theorem: an unassigned vehicle picks its nearest
matching post. -/
theorem greedy_round_precedence_witness :
    [(none : Option Nat), none].getD 0 none = none ∧
    firstMatchLabel trueMatcher (availPosts [post20] [0])
      ((rangeQuery (availPosts [post20] [0]) ([1, 2].getD 0 default)).take
        (min 1 (availPosts [post20] [0]).length)) ([1, 2].getD 0 default) = some 0 :=
  (greedy_round_nearest_and_precedence trueMatcher rangeQuery [post20] [1, 2] 1 [0]
    [none, none] 0 0).1 (by decide)

end EvoSim

namespace EvoSim

variable {V β : Type}

/-- C5 (counterexample): with an empty infrastructure the fleet `[7]` exceeds
the total vacancy, yet `random_allocator` raises no error: it returns the full
fleet with a null allocation (the code's overbooking guard delegates to
`random_overbooking` unconditionally; no raising path exists). -/
theorem random_base_overbooked_counterexample :
    (totalVacancy (indexPosts ([] : List (Post Unit)))).sum < [(7 : Nat)].length ∧
      random_allocator identRng trueMatcher 0 [(7 : Nat)] ([] : List (Post Unit)) =
        [((7 : Nat), (none : Option Nat))] :=
  ⟨by decide, by decide⟩

/-- C5: when the fleet size exceeds the total vacancy, `random_allocator` does
not raise: it delegates the whole fleet to the overbooking-aware strategy
`random_overbooking` and still returns one row per vehicle.  (The spec's §7
claim that the base form "signals this explicitly" as a fatal error is wrong
for this code: the overbooking guard holds no raise at all, only the
unconditional delegation; see `random_base_overbooked_counterexample`.) -/
theorem random_allocator_overbooked_delegates [Inhabited V] [Inhabited β] {rng : Rng}
    (hr : rng.Valid) (matcher : V → Post β → Bool) (mi : Nat) (fleet : List V)
    (posts : List (Post β))
    (hov : (totalVacancy (indexPosts posts)).sum < fleet.length) :
    random_allocator rng matcher mi fleet posts =
      fleet.zip (random_overbooking rng matcher mi (fleet.length + 1) 0 fleet
        (indexPosts posts)) ∧
    (random_allocator rng matcher mi fleet posts).length = fleet.length := by
  constructor
  · simp only [random_allocator]
    rw [if_pos hov]
  · simp only [random_allocator]
    rw [if_pos hov, List.length_zip,
      length_random_overbooking hr matcher mi (fleet.length + 1) 0 fleet (indexPosts posts)]
    exact Nat.min_self _
/-- Witness for C5's theorem: two vehicles against an empty infrastructure. -/
theorem random_allocator_overbooked_delegates_witness :
    random_allocator identRng trueMatcher 0 [(8 : Nat), 9] ([] : List (Post Unit)) =
      [(8 : Nat), 9].zip (random_overbooking identRng trueMatcher 0
        ([(8 : Nat), 9].length + 1) 0 [(8 : Nat), 9]
        (indexPosts ([] : List (Post Unit)))) ∧
    (random_allocator identRng trueMatcher 0 [(8 : Nat), 9]
      ([] : List (Post Unit))).length = [(8 : Nat), 9].length :=
  random_allocator_overbooked_delegates identRng_valid trueMatcher 0 [(8 : Nat), 9]
    ([] : List (Post Unit)) (by decide)

end EvoSim

namespace EvoSim

variable {V β : Type}

/-- C2 (counterexample): `occMatcher` reads the working occupancy column, and
the greedy allocator evaluates the matcher against posts carrying the
*working* occupancy of the current round, not the input table's.  Vehicle `2`
only accepts a post with one occupant, so it is rejected against the input
post (occupancy 0) yet assigned to it in the second round, after vehicle `1`
filled the first space: the invariant "the matcher evaluates True on that
exact vehicle/post pair" fails on the input pair. -/
theorem greedy_compat_counterexample :
    greedy_allocator rangeQuery occMatcher 0 0 [1, 2] [post20] =
      [(1, some 0), (2, some 0)] ∧ occMatcher 2 post20 = false :=
  ⟨by decide, by decide⟩

/-- C2: for every occupancy-insensitive matcher (all the repository's built-in
matchers except `charging_post_availability`), every vehicle assigned a
non-null allocation by `random_allocator` or by `greedy_allocator` matches its
assigned post: the matcher evaluates True on that exact vehicle/post pair.
For matchers that read the occupancy column the invariant fails, because both
allocators evaluate the matcher against working occupancies: see
`greedy_compat_counterexample`. -/
theorem compat_occ_insensitive [Inhabited V] [Inhabited β] {rng : Rng} (hr : rng.Valid)
    {matcher : V → Post β → Bool} (hocc : OccInsensitive matcher)
    {query : List (Nat × Post β) → V → List Nat} (hq : QueryValid query)
    (mi nn : Nat) (fleet : List V) (posts : List (Post β)) :
    (∀ i l, ((random_allocator rng matcher mi fleet posts).map Prod.snd).getD i none =
        some l → matcher (fleet.getD i default) (posts.getD l default) = true) ∧
    (∀ i l, ((greedy_allocator query matcher nn mi fleet posts).map Prod.snd).getD i
        none = some l → matcher (fleet.getD i default) (posts.getD l default) = true) := by
  constructor
  · intro i l h
    simp only [random_allocator] at h
    by_cases hov : (totalVacancy (indexPosts posts)).sum < fleet.length
    · rw [if_pos hov, List.map_snd_zip _ _ (le_of_eq
        (length_random_overbooking hr matcher mi _ _ _ _))] at h
      exact compat_random_overbooking hr hocc mi (fleet.length + 1) 0 fleet
        (indexPosts posts) (agrees_indexPosts posts) i l h
    · rw [if_neg hov, List.map_snd_zip _ _ (le_of_eq
        (length_random_allocator_base matcher _ _ _ _))] at h
      obtain ⟨-, hm, hsl⟩ := getD_random_allocator_base h
      have hl : l ∈ (indexPosts posts).map Prod.fst :=
        mem_expandVacancies ((hr.1 0 _).mem_iff.mp hsl)
      rw [lookup_agrees hocc (agrees_indexPosts posts) hl] at hm
      exact hm
  · intro i l h
    simp only [greedy_allocator] at h
    rw [List.map_snd_zip _ _ (le_of_eq (greedyLoop_length matcher query posts fleet _ _
      _ _ _ _ (List.length_replicate _ _)))] at h
    refine greedyLoop_compat hocc hq posts fleet _ _ _ _ _ _
      (List.length_replicate _ _) ?_ i l h
    intro i' l' h'
    rw [getD_replicate_none] at h'
    cases h'

/-- Witness for C2's theorem: the always-true matcher is
occupancy-insensitive, one vehicle and a one-space post. -/
theorem compat_occ_insensitive_witness :
    (∀ i l, ((random_allocator identRng trueMatcher 0 [(5 : Nat)] [post10]).map
        Prod.snd).getD i none = some l →
        trueMatcher ([(5 : Nat)].getD i default) ([post10].getD l default) = true) ∧
    (∀ i l, ((greedy_allocator rangeQuery trueMatcher 1 0 [(5 : Nat)] [post10]).map
        Prod.snd).getD i none = some l →
        trueMatcher ([(5 : Nat)].getD i default) ([post10].getD l default) = true) :=
  compat_occ_insensitive identRng_valid trueMatcher_occIns rangeQuery_valid 0 1
    [(5 : Nat)] [post10]

end EvoSim

namespace EvoSim

variable {V β : Type}

/-- C9: both allocators preserve the fleet row-for-row and are
null-consistent: the output has exactly one row per input vehicle, in order
and with the original columns (`map Prod.fst` returns the input fleet), and
the added allocation column holds null for unassigned vehicles and a valid
post label (a position of the infrastructure table) for assigned ones; no
vehicle is dropped and nothing is raised for unmatched vehicles. -/
theorem rowcount_null_consistency [Inhabited V] [Inhabited β] {rng : Rng}
    (hr : rng.Valid) (matcher : V → Post β → Bool)
    (query : List (Nat × Post β) → V → List Nat) (mi nn : Nat) (fleet : List V)
    (posts : List (Post β)) :
    ((random_allocator rng matcher mi fleet posts).length = fleet.length ∧
      (random_allocator rng matcher mi fleet posts).map Prod.fst = fleet ∧
      (∀ e ∈ random_allocator rng matcher mi fleet posts,
        e.2 = none ∨ ∃ l, e.2 = some l ∧ l < posts.length)) ∧
    ((greedy_allocator query matcher nn mi fleet posts).length = fleet.length ∧
      (greedy_allocator query matcher nn mi fleet posts).map Prod.fst = fleet ∧
      (∀ e ∈ greedy_allocator query matcher nn mi fleet posts,
        e.2 = none ∨ ∃ l, e.2 = some l ∧ l < posts.length)) := by
  have hoblen := length_random_overbooking hr matcher mi (fleet.length + 1) 0 fleet
    (indexPosts posts)
  have hbaselen := length_random_allocator_base matcher (indexPosts posts) fleet
    (rng.shuffleNat 0 (expandVacancies (indexPosts posts))) mi
  have hglen := greedyLoop_length matcher query posts fleet
    (if nn = 0 then posts.length else nn)
    (if mi = 0 then workingVacancySum posts (posts.map fun p => p.occupancy) + 1 else mi)
    (if mi = 0 then workingVacancySum posts (posts.map fun p => p.occupancy) + 1 else mi)
    0 (posts.map fun p => p.occupancy) (List.replicate fleet.length none)
    (List.length_replicate _ _)
  refine ⟨⟨?_, ?_, ?_⟩, ⟨?_, ?_, ?_⟩⟩
  · simp only [random_allocator]
    by_cases hov : (totalVacancy (indexPosts posts)).sum < fleet.length
    · rw [if_pos hov, List.length_zip, hoblen]
      exact Nat.min_self _
    · rw [if_neg hov, List.length_zip, hbaselen]
      exact Nat.min_self _
  · simp only [random_allocator]
    by_cases hov : (totalVacancy (indexPosts posts)).sum < fleet.length
    · rw [if_pos hov]
      exact List.map_fst_zip _ _ (le_of_eq hoblen.symm)
    · rw [if_neg hov]
      exact List.map_fst_zip _ _ (le_of_eq hbaselen.symm)
  · intro e he
    simp only [random_allocator] at he
    by_cases hov : (totalVacancy (indexPosts posts)).sum < fleet.length
    · rw [if_pos hov] at he
      rcases mem_random_overbooking hr matcher mi _ _ _ _ _
          (List.of_mem_zip he).2 with hn | ⟨l, hs, hl⟩
      · exact Or.inl hn
      · exact Or.inr ⟨l, hs, label_lt_of_mem_fst_indexPosts hl⟩
    · rw [if_neg hov] at he
      rcases mem_random_allocator_base (List.of_mem_zip he).2 with hn | ⟨l, hs, hl⟩
      · exact Or.inl hn
      · refine Or.inr ⟨l, hs, label_lt_of_mem_fst_indexPosts
          (mem_expandVacancies ((hr.1 0 _).mem_iff.mp hl))⟩
  · simp only [greedy_allocator]
    rw [List.length_zip, hglen]
    exact Nat.min_self _
  · simp only [greedy_allocator]
    exact List.map_fst_zip _ _ (le_of_eq hglen.symm)
  · intro e he
    simp only [greedy_allocator] at he
    have he2 := (List.of_mem_zip he).2
    obtain ⟨i, -, hg⟩ := mem_exists_getD none he2
    rcases hx : e.2 with _ | l
    · exact Or.inl rfl
    · rw [hx] at hg
      refine Or.inr ⟨l, rfl, ?_⟩
      refine greedyLoop_valid matcher query posts fleet _ _ _ _ _ _
        (List.length_replicate _ _) ?_ i l hg
      intro i' l' h'
      rw [getD_replicate_none] at h'
      cases h'

/-- Witness for C9's theorem: two vehicles, one post with one spare space. -/
theorem rowcount_null_consistency_witness :
    ((random_allocator identRng trueMatcher 0 [(5 : Nat), 6] [post21]).length =
        [(5 : Nat), 6].length ∧
      (random_allocator identRng trueMatcher 0 [(5 : Nat), 6] [post21]).map Prod.fst =
        [(5 : Nat), 6] ∧
      (∀ e ∈ random_allocator identRng trueMatcher 0 [(5 : Nat), 6] [post21],
        e.2 = none ∨ ∃ l, e.2 = some l ∧ l < [post21].length)) ∧
    ((greedy_allocator rangeQuery trueMatcher 1 0 [(5 : Nat), 6] [post21]).length =
        [(5 : Nat), 6].length ∧
      (greedy_allocator rangeQuery trueMatcher 1 0 [(5 : Nat), 6] [post21]).map
        Prod.fst = [(5 : Nat), 6] ∧
      (∀ e ∈ greedy_allocator rangeQuery trueMatcher 1 0 [(5 : Nat), 6] [post21],
        e.2 = none ∨ ∃ l, e.2 = some l ∧ l < [post21].length)) :=
  rowcount_null_consistency identRng_valid trueMatcher rangeQuery 0 1 [(5 : Nat), 6]
    [post21]

end EvoSim

namespace EvoSim

variable {V β : Type}

/-- C1: the capacity invariant holds for all three allocator outputs.  For
every post of a well-formed infrastructure table (occupancy at most capacity,
distinct labels), the number of output rows allocated to that post plus the
post's original occupancy is at most its capacity: for `random_allocator` and
`greedy_allocator` over every post position of the input table, and for
`random_overbooking` over every labelled row of its table, at every fuel and
rng-counter state. -/
theorem capacity_invariant [Inhabited V] [Inhabited β] (rng : Rng) (hr : rng.Valid)
    (matcher : V → Post β → Bool) (query : List (Nat × Post β) → V → List Nat)
    (mi nn fuel ctr : Nat) (fleet : List V) (posts : List (Post β))
    (ips : List (Nat × Post β)) (hnd : (ips.map Prod.fst).Nodup)
    (hwfi : ∀ e ∈ ips, e.2.occupancy ≤ e.2.capacity)
    (hwf : ∀ p ∈ posts, p.occupancy ≤ p.capacity) :
    (∀ l, l < posts.length →
      (((random_allocator rng matcher mi fleet posts).map Prod.snd).countP
          fun a => a == some l) + (posts.getD l default).occupancy ≤
        (posts.getD l default).capacity) ∧
    (∀ l p, (l, p) ∈ ips →
      ((random_overbooking rng matcher mi fuel ctr fleet ips).countP
          fun a => a == some l) + p.occupancy ≤ p.capacity) ∧
    (∀ l, l < posts.length →
      (((greedy_allocator query matcher nn mi fleet posts).map Prod.snd).countP
          fun a => a == some l) + (posts.getD l default).occupancy ≤
        (posts.getD l default).capacity) := by
  refine ⟨?_, ?_, ?_⟩
  · intro l hl
    have hmem := indexPosts_mem_of_lt hl
    have hwfp := hwf (posts.getD l default) (getD_mem hl)
    simp only [random_allocator]
    by_cases hov : (totalVacancy (indexPosts posts)).sum < fleet.length
    · rw [if_pos hov, List.map_snd_zip _ _ (le_of_eq
        (length_random_overbooking hr matcher mi _ _ _ _))]
      have h := countP_random_overbooking hr matcher mi (fleet.length + 1) 0 fleet
        (indexPosts posts) (nodup_fst_indexPosts posts) (wf_indexPosts hwf) l _ hmem
      unfold Post.vacancy at h
      omega
    · rw [if_neg hov, List.map_snd_zip _ _ (le_of_eq
        (length_random_allocator_base matcher _ _ _ _))]
      have h := countP_random_allocator_base matcher (indexPosts posts) fleet
        (rng.shuffleNat 0 (expandVacancies (indexPosts posts))) mi l
      rw [(hr.1 0 (expandVacancies (indexPosts posts))).count_eq,
        count_expandVacancies (nodup_fst_indexPosts posts) hmem] at h
      unfold Post.vacancy at h
      omega
  · intro l p hlp
    have h := countP_random_overbooking hr matcher mi fuel ctr fleet ips hnd hwfi l p hlp
    have hwfp : p.occupancy ≤ p.capacity := hwfi (l, p) hlp
    unfold Post.vacancy at h
    omega
  · intro l hl
    have hwfp := hwf (posts.getD l default) (getD_mem hl)
    have hinv : GInv posts fleet (posts.map fun p => p.occupancy)
        (List.replicate fleet.length (none : Option Nat)) := by
      refine ⟨by simp, by simp, ?_, ?_, ?_⟩
      · intro l' hl'
        rw [countP_replicate_none, getD_map_of_lt _ _ posts l' hl']
        omega
      · intro l' hl'
        rw [getD_map_of_lt _ _ posts l' hl']
        exact hwf (posts.getD l' default) (getD_mem hl')
      · intro i' l' h'
        rw [getD_replicate_none] at h'
        cases h'
    obtain ⟨hlen, hcap, -⟩ := greedyLoop_out matcher query posts fleet
      (if nn = 0 then posts.length else nn)
      (if mi = 0 then workingVacancySum posts (posts.map fun p => p.occupancy) + 1
        else mi)
      (if mi = 0 then workingVacancySum posts (posts.map fun p => p.occupancy) + 1
        else mi)
      0 (posts.map fun p => p.occupancy) (List.replicate fleet.length none) hinv
    simp only [greedy_allocator]
    rw [List.map_snd_zip _ _ (le_of_eq hlen)]
    exact hcap l hl

/-- Witness for C1's theorem: three vehicles (overbooked), a single post with
one spare space, and the matching labelled table. -/
theorem capacity_invariant_witness :
    (∀ l, l < [post21].length →
      (((random_allocator identRng trueMatcher 0 [(1 : Nat), 2, 3] [post21]).map
          Prod.snd).countP fun a => a == some l) +
        ([post21].getD l default).occupancy ≤ ([post21].getD l default).capacity) ∧
    (∀ l p, (l, p) ∈ [(0, post21)] →
      ((random_overbooking identRng trueMatcher 0 4 0 [(1 : Nat), 2, 3]
          [(0, post21)]).countP fun a => a == some l) + p.occupancy ≤ p.capacity) ∧
    (∀ l, l < [post21].length →
      (((greedy_allocator rangeQuery trueMatcher 0 0 [(1 : Nat), 2, 3] [post21]).map
          Prod.snd).countP fun a => a == some l) +
        ([post21].getD l default).occupancy ≤ ([post21].getD l default).capacity) :=
  capacity_invariant identRng identRng_valid trueMatcher rangeQuery 0 0 4 0
    [(1 : Nat), 2, 3] [post21] [(0, post21)] (by decide) (by decide) (by decide)

end EvoSim

namespace EvoSim

variable {V β : Type}

/-- C4: one level of `random_overbooking` on an overbooked fleet partitions it
by the randomly drawn mask `obFilter` into a first-wave subfleet of size
exactly the total vacancy and a leftover subfleet with the remainder; the
first wave is allocated with the supplied base method against the full level
infrastructure; the level's result merges the first-wave allocation with a
recursive call on the leftover against exactly the posts that still have
remaining vacancy after the first wave (`spareOf`), the leftover staying
unassigned when no such post remains; every post passed to the recursion has
remaining vacancy; a non-empty recursion strictly shrinks the fleet; and the
recursion terminates — any two fuels above the fleet size give the same
result. -/
theorem overbooking_partition_recursion [Inhabited V] [Inhabited β] {rng : Rng}
    (hr : rng.Valid) (matcher : V → Post β → Bool) (mi fuel ctr : Nat) (fleet : List V)
    (ips : List (Nat × Post β)) (hov : (totalVacancy ips).sum < fleet.length) :
    (maskSelect (obFilter rng ctr fleet.length (totalVacancy ips).sum) fleet).length =
        (totalVacancy ips).sum ∧
    (maskSelectNot (obFilter rng ctr fleet.length (totalVacancy ips).sum) fleet).length =
        fleet.length - (totalVacancy ips).sum ∧
    obSubAlloc rng matcher mi fuel ctr fleet ips =
      random_allocator_base matcher ips
        (maskSelect (obFilter rng ctr fleet.length (totalVacancy ips).sum) fleet)
        (rng.shuffleNat (ctr + 1) (expandVacancies ips)) mi ∧
    random_overbooking rng matcher mi (fuel + 1) ctr fleet ips =
      (if (spareOf ips (obSubAlloc rng matcher mi fuel ctr fleet ips)).isEmpty then
        mergeByMask (obFilter rng ctr fleet.length (totalVacancy ips).sum)
          (obSubAlloc rng matcher mi fuel ctr fleet ips)
          (List.replicate
            (maskSelectNot (obFilter rng ctr fleet.length (totalVacancy ips).sum)
              fleet).length none)
      else
        mergeByMask (obFilter rng ctr fleet.length (totalVacancy ips).sum)
          (obSubAlloc rng matcher mi fuel ctr fleet ips)
          (random_overbooking rng matcher mi fuel (ctr + 2)
            (maskSelectNot (obFilter rng ctr fleet.length (totalVacancy ips).sum) fleet)
            (spareOf ips (obSubAlloc rng matcher mi fuel ctr fleet ips)))) ∧
    (∀ e ∈ spareOf ips (obSubAlloc rng matcher mi fuel ctr fleet ips),
      e.2.occupancy < e.2.capacity) ∧
    ((spareOf ips (obSubAlloc rng matcher mi fuel ctr fleet ips)).isEmpty = false →
      (maskSelectNot (obFilter rng ctr fleet.length (totalVacancy ips).sum)
        fleet).length < fleet.length) ∧
    (∀ f g, fleet.length < f → fleet.length < g →
      random_overbooking rng matcher mi f ctr fleet ips =
        random_overbooking rng matcher mi g ctr fleet ips) := by
  refine ⟨length_obSub hr ctr fleet _ (by omega),
    length_obLeftover hr ctr fleet _ (by omega), obSubAlloc_eq_base hr hov,
    random_overbooking_over (by omega), ?_, ?_, ?_⟩
  · intro e he
    exact (spareOf_mem he).1
  · intro hne
    rw [length_obLeftover hr ctr fleet _ (by omega)]
    have h1 : 1 ≤ (totalVacancy ips).sum :=
      spare_nonempty_vacancy_pos (by rw [hne]; simp)
    omega
  · intro f g hf hg
    exact random_overbooking_fuel_stable hr matcher mi fleet.length fleet ips f g ctr
      le_rfl hf hg

/-- Witness for C4's theorem: three vehicles against a one-vacancy table. -/
theorem overbooking_partition_witness :
    (maskSelect (obFilter identRng 0 [(1 : Nat), 2, 3].length
        (totalVacancy [(0, post21)]).sum) [(1 : Nat), 2, 3]).length =
        (totalVacancy [(0, post21)]).sum ∧
    (maskSelectNot (obFilter identRng 0 [(1 : Nat), 2, 3].length
        (totalVacancy [(0, post21)]).sum) [(1 : Nat), 2, 3]).length =
        [(1 : Nat), 2, 3].length - (totalVacancy [(0, post21)]).sum ∧
    obSubAlloc identRng trueMatcher 0 2 0 [(1 : Nat), 2, 3] [(0, post21)] =
      random_allocator_base trueMatcher [(0, post21)]
        (maskSelect (obFilter identRng 0 [(1 : Nat), 2, 3].length
          (totalVacancy [(0, post21)]).sum) [(1 : Nat), 2, 3])
        (identRng.shuffleNat (0 + 1) (expandVacancies [(0, post21)])) 0 ∧
    random_overbooking identRng trueMatcher 0 (2 + 1) 0 [(1 : Nat), 2, 3]
        [(0, post21)] =
      (if (spareOf [(0, post21)]
          (obSubAlloc identRng trueMatcher 0 2 0 [(1 : Nat), 2, 3]
            [(0, post21)])).isEmpty then
        mergeByMask (obFilter identRng 0 [(1 : Nat), 2, 3].length
            (totalVacancy [(0, post21)]).sum)
          (obSubAlloc identRng trueMatcher 0 2 0 [(1 : Nat), 2, 3] [(0, post21)])
          (List.replicate
            (maskSelectNot (obFilter identRng 0 [(1 : Nat), 2, 3].length
              (totalVacancy [(0, post21)]).sum) [(1 : Nat), 2, 3]).length none)
      else
        mergeByMask (obFilter identRng 0 [(1 : Nat), 2, 3].length
            (totalVacancy [(0, post21)]).sum)
          (obSubAlloc identRng trueMatcher 0 2 0 [(1 : Nat), 2, 3] [(0, post21)])
          (random_overbooking identRng trueMatcher 0 2 (0 + 2)
            (maskSelectNot (obFilter identRng 0 [(1 : Nat), 2, 3].length
              (totalVacancy [(0, post21)]).sum) [(1 : Nat), 2, 3])
            (spareOf [(0, post21)]
              (obSubAlloc identRng trueMatcher 0 2 0 [(1 : Nat), 2, 3]
                [(0, post21)])))) ∧
    (∀ e ∈ spareOf [(0, post21)]
        (obSubAlloc identRng trueMatcher 0 2 0 [(1 : Nat), 2, 3] [(0, post21)]),
      e.2.occupancy < e.2.capacity) ∧
    ((spareOf [(0, post21)]
        (obSubAlloc identRng trueMatcher 0 2 0 [(1 : Nat), 2, 3]
          [(0, post21)])).isEmpty = false →
      (maskSelectNot (obFilter identRng 0 [(1 : Nat), 2, 3].length
        (totalVacancy [(0, post21)]).sum) [(1 : Nat), 2, 3]).length <
        [(1 : Nat), 2, 3].length) ∧
    (∀ f g, [(1 : Nat), 2, 3].length < f → [(1 : Nat), 2, 3].length < g →
      random_overbooking identRng trueMatcher 0 f 0 [(1 : Nat), 2, 3] [(0, post21)] =
        random_overbooking identRng trueMatcher 0 g 0 [(1 : Nat), 2, 3]
          [(0, post21)]) :=
  overbooking_partition_recursion identRng_valid trueMatcher 0 2 0 [(1 : Nat), 2, 3]
    [(0, post21)] (by decide)

end EvoSim
